import Mathlib

/-!
# Verification of the Budget Helper rollover engine

A shallow embedding of the rollover calculation engine of the budget-helper
Excel add-in (`rollover.ts`, `budget-history.ts`, together with the pieces of
`lookups.ts` and `excel-helpers.ts` they rely on), plus theorems settling the
specified properties of the engine.

Modelling conventions:
* Excel cell contents that the code funnels through `parseFloat`/`toNumber`
  are modelled as `Option ℚ`: `none` stands for a value on which the parse
  yields `null`/`NaN` (missing or non-numeric); `some q` stands for the
  finite numeric value `q`.  JavaScript numbers are modelled by `ℚ`
  (months/years that the engine iterates over are modelled by `ℤ`).
* The JavaScript `Map` keyed by the composite string
  `"{month}-{year}-{expense}"` is modelled by an association list keyed by
  the triple itself; for months/years written in decimal the string key is
  injective in the triple, so this is faithful.
* `Array.prototype.sort` with comparator `(a, b) => b.startIndex - a.startIndex`
  is a stable descending sort by `startIndex`; it is modelled by a stable
  insertion sort, which computes the same list.
-/

namespace BudgetHelper

/-! ## A tiny association map mirroring the JavaScript `Map` operations used -/

/-- `mapGet l k` models `Map.get`: the value bound to `k`, if any. -/
def mapGet {α β : Type} [DecidableEq α] (l : List (α × β)) (k : α) : Option β :=
  match l with
  | [] => none
  | (k₁, v₁) :: t => if k₁ = k then some v₁ else mapGet t k

/-- `mapSet l k v` models `Map.set`: rebind `k` if present, else append. -/
def mapSet {α β : Type} [DecidableEq α] (l : List (α × β)) (k : α) (v : β) :
    List (α × β) :=
  match l with
  | [] => [(k, v)]
  | (k₁, v₁) :: t => if k₁ = k then (k, v) :: t else (k₁, v₁) :: mapSet t k v

theorem mapGet_mapSet_self {α β : Type} [DecidableEq α]
    (l : List (α × β)) (k : α) (v : β) : mapGet (mapSet l k v) k = some v := by
  induction l with
  | nil => simp [mapGet, mapSet]
  | cons h t ih =>
    obtain ⟨k₁, v₁⟩ := h
    by_cases hk : k₁ = k <;> simp [mapGet, mapSet, hk, ih]

theorem mapGet_mapSet_ne {α β : Type} [DecidableEq α]
    (l : List (α × β)) (k k₂ : α) (v : β) (h : k ≠ k₂) :
    mapGet (mapSet l k v) k₂ = mapGet l k₂ := by
  induction l with
  | nil => simp [mapGet, mapSet, h]
  | cons hd t ih =>
    obtain ⟨k₁, v₁⟩ := hd
    by_cases hk : k₁ = k
    · subst hk; simp [mapGet, mapSet, h]
    · simp only [mapSet, if_neg hk, mapGet]
      by_cases hk₂ : k₁ = k₂ <;> simp [hk₂, ih]

/-- Every binding of `mapSet l k v` is either `(k, v)` or a binding of `l`. -/
theorem mem_of_mem_mapSet {α β : Type} [DecidableEq α]
    {l : List (α × β)} {k : α} {v : β} {p : α × β}
    (h : p ∈ mapSet l k v) : p = (k, v) ∨ p ∈ l := by
  induction l with
  | nil => simpa [mapSet] using h
  | cons hd t ih =>
    obtain ⟨k₁, v₁⟩ := hd
    by_cases hk : k₁ = k
    · subst hk
      rcases (by simpa [mapSet] using h : p = (k₁, v) ∨ p ∈ t) with h₁ | h₁
      · exact Or.inl (by simpa using h₁)
      · exact Or.inr (List.mem_cons_of_mem _ h₁)
    · rcases (by simpa [mapSet, hk] using h : p = (k₁, v₁) ∨ p ∈ mapSet t k v)
        with h₁ | h₁
      · exact Or.inr (by simp [h₁])
      · rcases ih h₁ with h₂ | h₂
        · exact Or.inl h₂
        · exact Or.inr (List.mem_cons_of_mem _ h₂)

/-- A successful `mapGet` exhibits a binding in the list. -/
theorem mem_of_mapGet_eq_some {α β : Type} [DecidableEq α]
    {l : List (α × β)} {k : α} {v : β} (h : mapGet l k = some v) :
    (k, v) ∈ l := by
  induction l with
  | nil => simp [mapGet] at h
  | cons hd t ih =>
    obtain ⟨k₁, v₁⟩ := hd
    by_cases hk : k₁ = k
    · subst hk
      have hv : v₁ = v := by simpa [mapGet] using h
      simp [← hv]
    · simp only [mapGet, if_neg hk] at h
      exact List.mem_cons_of_mem _ (ih h)

/-! ## Budget-History Resolver (`budget-history.ts`)

The raw table row: the five range/amount cells are carried through
`toNumber` (`null` for non-numeric input), modelled as `Option ℚ`. -/

structure BudgetHistoryEntry where
  Expense : String
  MonthStart : Option ℚ
  YearStart : Option ℚ
  MonthEnd : Option ℚ
  YearEnd : Option ℚ
  Amount : Option ℚ
deriving DecidableEq, Repr

structure HistoryMatch where
  entry : BudgetHistoryEntry
  startIndex : ℚ
  endIndex : ℚ
deriving DecidableEq, Repr

/-- `toMonthIndex`: linearize a (month, year) pair to `year*12 + (month-1)`;
`none` when the month is outside `1..12` (the `Number.isFinite` guards of the
source are vacuous in the `ℚ` model, which has no `NaN`/`Infinity`). -/
def toMonthIndex (month year : ℚ) : Option ℚ :=
  if month < 1 ∨ 12 < month then none else some (year * 12 + (month - 1))

/-- `getRangeIndices`: both endpoints of a row's range as month indices,
`none` whenever any of the four cells is non-numeric or out of range. -/
def getRangeIndices (row : BudgetHistoryEntry) : Option (ℚ × ℚ) :=
  match row.MonthStart, row.YearStart, row.MonthEnd, row.YearEnd with
  | some ms, some ys, some me, some ye =>
    match toMonthIndex ms ys, toMonthIndex me ye with
    | some s, some e => some (s, e)
    | _, _ => none
  | _, _, _, _ => none

/-- `getBudgetHistoryMatches`: all rows of the given expense whose
`[start, end]` index range contains the target index. -/
def getBudgetHistoryMatches (history : List BudgetHistoryEntry)
    (expense : String) (month year : ℚ) : List HistoryMatch :=
  match toMonthIndex month year with
  | none => []
  | some target =>
    history.filterMap fun row =>
      if row.Expense ≠ expense then none
      else
        match getRangeIndices row with
        | none => none
        | some (s, e) =>
          if s ≤ target ∧ target ≤ e then some ⟨row, s, e⟩ else none

/-- Stable insertion of one match into a list sorted descending by
`startIndex` (insertion after every element with an equal key keeps the sort
stable, matching `Array.prototype.sort`). -/
def insertByStartDesc (x : HistoryMatch) : List HistoryMatch → List HistoryMatch
  | [] => [x]
  | y :: t =>
    if y.startIndex < x.startIndex then x :: y :: t else y :: insertByStartDesc x t

/-- The stable descending sort by `startIndex` performed by
`matches.sort((a, b) => b.startIndex - a.startIndex)`. -/
def sortByStartDesc (l : List HistoryMatch) : List HistoryMatch :=
  l.foldl (fun acc x => insertByStartDesc x acc) []

/-- `selectBudgetHistoryEntry`: the matching entry with the latest start
index (if any), together with all matching entries sorted latest-first. -/
def selectBudgetHistoryEntry (history : List BudgetHistoryEntry)
    (expense : String) (month year : ℚ) :
    Option BudgetHistoryEntry × List BudgetHistoryEntry :=
  let ms := getBudgetHistoryMatches history expense month year
  if ms.isEmpty then (none, [])
  else
    let sorted := sortByStartDesc ms
    (sorted.head?.map (·.entry), sorted.map (·.entry))

/-- `parseBudgetAmount`: a non-numeric amount is read as `0`. -/
def parseBudgetAmount (value : Option ℚ) : ℚ :=
  value.getD 0

/-! ### Lemmas about the resolver -/

theorem mem_insertByStartDesc {x a : HistoryMatch} {l : List HistoryMatch} :
    a ∈ insertByStartDesc x l ↔ a = x ∨ a ∈ l := by
  induction l with
  | nil => simp [insertByStartDesc]
  | cons y t ih =>
    by_cases hy : y.startIndex < x.startIndex
    · simp only [insertByStartDesc, if_pos hy, List.mem_cons]
    · simp only [insertByStartDesc, if_neg hy, List.mem_cons, ih]
      tauto

theorem mem_sortByStartDesc {a : HistoryMatch} {l : List HistoryMatch} :
    a ∈ sortByStartDesc l ↔ a ∈ l := by
  suffices h : ∀ acc, a ∈ l.foldl (fun acc x => insertByStartDesc x acc) acc ↔
      a ∈ acc ∨ a ∈ l by
    simpa using h []
  induction l with
  | nil => simp
  | cons x t ih =>
    intro acc
    simp only [List.foldl_cons, ih, mem_insertByStartDesc, List.mem_cons]
    tauto

/-- Descending sortedness by `startIndex`. -/
def SortedDesc (l : List HistoryMatch) : Prop :=
  l.Pairwise fun a b => b.startIndex ≤ a.startIndex

theorem sortedDesc_insertByStartDesc {x : HistoryMatch} {l : List HistoryMatch}
    (h : SortedDesc l) : SortedDesc (insertByStartDesc x l) := by
  induction l with
  | nil => simp [SortedDesc, insertByStartDesc]
  | cons y t ih =>
    rcases (List.pairwise_cons.mp h) with ⟨hy, ht⟩
    by_cases hlt : y.startIndex < x.startIndex
    · simp only [insertByStartDesc, if_pos hlt]
      refine List.pairwise_cons.mpr ⟨?_, h⟩
      intro b hb
      rcases List.mem_cons.mp hb with hb | hb
      · exact le_of_lt (hb ▸ hlt)
      · exact le_trans (hy b hb) (le_of_lt hlt)
    · simp only [insertByStartDesc, if_neg hlt]
      refine List.pairwise_cons.mpr ⟨?_, ih ht⟩
      intro b hb
      rcases mem_insertByStartDesc.mp hb with hb | hb
      · exact hb ▸ le_of_not_lt hlt
      · exact hy b hb

theorem sortedDesc_sortByStartDesc (l : List HistoryMatch) :
    SortedDesc (sortByStartDesc l) := by
  suffices h : ∀ acc, SortedDesc acc →
      SortedDesc (l.foldl (fun acc x => insertByStartDesc x acc) acc) by
    exact h [] (by simp [SortedDesc])
  induction l with
  | nil => exact fun acc h => h
  | cons x t ih =>
    intro acc hacc
    exact ih _ (sortedDesc_insertByStartDesc hacc)

theorem head_max_of_sortedDesc {h : HistoryMatch} {t : List HistoryMatch}
    (hs : SortedDesc (h :: t)) :
    ∀ a ∈ h :: t, a.startIndex ≤ h.startIndex := by
  intro a ha
  rcases List.mem_cons.mp ha with ha | ha
  · exact le_of_eq (by rw [ha])
  · exact (List.pairwise_cons.mp hs).1 a ha

/-! ## The rollover data model (`rollover.ts`, `lookups.ts`)

`RolloverEntry` is the period balance record: `Expenses` is the period spend,
`BOM`/`EOM` the opening/closing balances. -/

structure RolloverEntry where
  Month : ℤ
  Year : ℤ
  Expense : String
  Expenses : ℚ
  BOM : ℚ
  EOM : ℚ
deriving DecidableEq, Repr

/-- A row of the `Transactions` table.  The category cell is read under two
different property names at the two call sites (`transaction.Expense` in
`getRollover`, `t['Expense Type']` in `resetRollover`); both are carried so
each function can be embedded verbatim. -/
structure Transaction where
  Month : ℤ
  Year : ℤ
  Expense : String
  ExpenseType : String
  Amount : ℚ
deriving DecidableEq, Repr

/-- A row of the `ExpenseData` (category definitions) table.  The `Budget` and
`Init` cells are raw; `none` models a cell whose `parseFloat` is `NaN`. -/
structure ExpenseDataRow where
  ExpenseType : String
  Budget : Option ℚ
  Init : Option ℚ
deriving DecidableEq, Repr

/-- `getInitialAmount` (`lookups.ts`): `parseFloat` of the `Init` cell of the
first `ExpenseData` row of the given expense; `none` models the `NaN` result
when no row matches or the cell does not parse. -/
def getInitialAmount (expenseData : List ExpenseDataRow) (expense : String) :
    Option ℚ :=
  (((expenseData.filter fun row => row.ExpenseType = expense).map
    (·.Init)).head?).join

/-- The `reduce((acc, t) => acc + t.Amount, 0)` over the transactions of the
given month/year/expense inside `getRollover`. -/
def sumMatchingAmounts (transactions : List Transaction) (month year : ℤ)
    (expense : String) : ℚ :=
  ((transactions.filter fun t => t.Month = month ∧ t.Year = year).filter
    fun t => t.Expense = expense).foldl (fun acc t => acc + t.Amount) 0

/-- Outcome of `getRollover`: the resolved entry, the entry appended to the
`Rollovers` table via `AddToTable` (if any), and whether the duplicate-rows
warning was logged. -/
structure GetRolloverResult where
  returned : RolloverEntry
  added : Option RolloverEntry
  warnedDup : Bool
deriving DecidableEq, Repr

/-- `getRollover` (`rollover.ts`).  Result is `none` only on the creation
path when `getInitialAmount` yields `NaN`, which the rational-number model
cannot represent (the source would then store `NaN` balances).  The source
also fetches `getBudget` on the creation path but never uses its value in
the new entry, so that read is not modelled. -/
def getRollover (rollovers : List RolloverEntry)
    (transactions : List Transaction) (expenseData : List ExpenseDataRow)
    (month year : ℤ) (expense : String) : Option GetRolloverResult :=
  let rows := (rollovers.filter fun r => r.Month = month ∧ r.Year = year).filter
    fun r => r.Expense = expense
  match rows with
  | [] =>
    match getInitialAmount expenseData expense with
    | none => none
    | some initialAmount =>
      let monthlyExpenses := sumMatchingAmounts transactions month year expense
      let newEntry : RolloverEntry :=
        ⟨month, year, expense, monthlyExpenses, initialAmount, initialAmount⟩
      some ⟨newEntry, some newEntry, false⟩
  | [r] => some ⟨r, none, false⟩
  | r :: _ :: _ => some ⟨r, none, true⟩

/-- `updateRollover` (`rollover.ts`): find the positional index of the row
with the entry's (Month, Year, Expense) key via `findIndex`; reject when
there is none, otherwise overwrite that row in place (`UpdateTableRow`). -/
def updateRollover (rollovers : List RolloverEntry) (entry : RolloverEntry) :
    Except String (List RolloverEntry) :=
  match rollovers.findIdx? (fun row =>
      decide (row.Month = entry.Month ∧ row.Year = entry.Year ∧
        row.Expense = entry.Expense)) with
  | none => .error "No matching row found."
  | some rowIndex => .ok (rollovers.set rowIndex entry)

/-! ## Bulk Recalculation Engine (`resetRollover`, `rollover.ts`)

The composite string key `"{month}-{year}-{expense}"` is modelled by the
triple itself. -/

structure RKey where
  month : ℤ
  year : ℤ
  expense : String
deriving DecidableEq, Repr

def rolloverKey (r : RolloverEntry) : RKey :=
  ⟨r.Month, r.Year, r.Expense⟩

/-- A `rolloverMap` value: the in-memory entry plus its storage row index
(`-1` for entries created during the walk). -/
structure RolloverSlot where
  entry : RolloverEntry
  index : ℤ
deriving DecidableEq, Repr

abbrev RolloverMap := List (RKey × RolloverSlot)

/-- `allRollovers.forEach((entry, index) => rolloverMap.set(key, {entry, index}))`. -/
def buildRolloverMapAux : ℕ → List RolloverEntry → RolloverMap → RolloverMap
  | _, [], m => m
  | i, r :: rest, m =>
    buildRolloverMapAux (i + 1) rest (mapSet m (rolloverKey r) ⟨r, (i : ℤ)⟩)

def buildRolloverMap (rollovers : List RolloverEntry) : RolloverMap :=
  buildRolloverMapAux 0 rollovers []

structure SpendTally where
  total : ℚ
  count : ℕ
deriving DecidableEq, Repr

/-- The `transactionMap` accumulation; `t.Amount || 0` is the identity on the
numeric amounts of the model. -/
def buildTransactionMap (transactions : List Transaction) :
    List (RKey × SpendTally) :=
  transactions.foldl
    (fun m t =>
      let key : RKey := ⟨t.Month, t.Year, t.ExpenseType⟩
      let current := (mapGet m key).getD ⟨0, 0⟩
      mapSet m key ⟨current.total + t.Amount, current.count + 1⟩)
    []

structure CategoryInfo where
  Budget : ℚ
  Init : ℚ
deriving DecidableEq, Repr

/-- The `expenseDataMap`.  In the source, `parseFloat(row['Budget'] || 0)`
turns an empty cell into `0` and a non-numeric one into `NaN`, and every use
site then coerces through `|| 0`; both collapse to `.getD 0` here. -/
def buildExpenseDataMap (rows : List ExpenseDataRow) :
    List (String × CategoryInfo) :=
  rows.foldl
    (fun m row => mapSet m row.ExpenseType ⟨row.Budget.getD 0, row.Init.getD 0⟩)
    []

/-- The in-memory inputs of the forward walk, fixed after Phases 1–2. -/
structure ResetContext where
  budgetHistory : List BudgetHistoryEntry
  transactionMap : List (RKey × SpendTally)
  expenseDataMap : List (String × CategoryInfo)
  todaysMonth : ℤ
  todaysYear : ℤ

/-- `getBudgetInMemory`: budget-history override if one resolves, else the
category's default budget (`expenseDataMap.get(expense)?.Budget || 0`). -/
def getBudgetInMemory (ctx : ResetContext) (expense : String)
    (month year : ℤ) : ℚ :=
  match (selectBudgetHistoryEntry ctx.budgetHistory expense
      (month : ℚ) (year : ℚ)).1 with
  | some entry => parseBudgetAmount entry.Amount
  | none => ((mapGet ctx.expenseDataMap expense).map (·.Budget)).getD 0

/-- `getInitialAmountInMemory`: `expenseDataMap.get(expense)?.Init || 0`. -/
def getInitialAmountInMemory (ctx : ResetContext) (expense : String) : ℚ :=
  ((mapGet ctx.expenseDataMap expense).map (·.Init)).getD 0

/-- `previousMonth = month - 1`, wrapping `0` to December of the prior year. -/
def prevMonthYear (month year : ℤ) : ℤ × ℤ :=
  let previousMonth := month - 1
  if previousMonth = 0 then (12, year - 1) else (previousMonth, year)

/-- `month++`, wrapping `13` to January of the next year. -/
def nextMonthYear (month year : ℤ) : ℤ × ℤ :=
  if month + 1 = 13 then (1, year + 1) else (month + 1, year)

/-- One queued result of the walk: an update (with its storage row index) or
an insert. -/
structure StepOut where
  isUpdate : Bool
  rowIndex : ℤ
  record : RolloverEntry
deriving DecidableEq, Repr

/-- One iteration of the per-category while loop: resolve budget, previous
EOM (in-memory chaining), period spend; queue an update or an insert and
store the result back into the map. -/
def walkStep (ctx : ResetContext) (expense : String) (month year : ℤ)
    (rmap : RolloverMap) : StepOut × RolloverMap :=
  let key : RKey := ⟨month, year, expense⟩
  let currentRolloverData := mapGet rmap key
  let budget := getBudgetInMemory ctx expense month year
  let prev := prevMonthYear month year
  let prevEOM :=
    match mapGet rmap ⟨prev.1, prev.2, expense⟩ with
    | some prevSlot => prevSlot.entry.EOM
    | none => getInitialAmountInMemory ctx expense
  let totalAmount := ((mapGet ctx.transactionMap key).map (·.total)).getD 0
  let base : RolloverEntry :=
    match currentRolloverData with
    | some cur => cur.entry
    | none => ⟨month, year, expense, 0, 0, 0⟩
  let record : RolloverEntry :=
    { base with
      Expenses := totalAmount
      BOM := prevEOM
      EOM := prevEOM + budget + totalAmount }
  match currentRolloverData with
  | some cur => (⟨true, cur.index, record⟩, mapSet rmap key ⟨record, cur.index⟩)
  | none => (⟨false, -1, record⟩, mapSet rmap key ⟨record, -1⟩)

/-- The per-category while loop, fuelled by `loopLimit` (24 in the engine):
run while the current month does not lie after today's month and fuel
remains. -/
def walk (ctx : ResetContext) (expense : String) (month year : ℤ)
    (fuel : ℕ) (rmap : RolloverMap) : List StepOut × RolloverMap :=
  match fuel with
  | 0 => ([], rmap)
  | fuel + 1 =>
    if year < ctx.todaysYear ∨
        (year = ctx.todaysYear ∧ month ≤ ctx.todaysMonth) then
      let step := walkStep ctx expense month year rmap
      let next := nextMonthYear month year
      let rest := walk ctx expense next.1 next.2 fuel step.2
      (step.1 :: rest.1, rest.2)
    else ([], rmap)

/-- The `for (const expense of expenses)` loop.  The future-date guard sits
at the top of each iteration and returns from the whole function; the third
component records whether it fired. -/
def processExpenses (ctx : ResetContext) (startingMonth startingYear : ℤ)
    (expenses : List String) (rmap : RolloverMap) :
    List StepOut × RolloverMap × Bool :=
  match expenses with
  | [] => ([], rmap, false)
  | e :: rest =>
    if startingYear > ctx.todaysYear ∨
        (startingYear = ctx.todaysYear ∧ startingMonth > ctx.todaysMonth) then
      ([], rmap, true)
    else
      let w := walk ctx e startingMonth startingYear 24 rmap
      let r := processExpenses ctx startingMonth startingYear rest w.2
      (w.1 ++ r.1, r.2.1, r.2.2)

/-- The storage side effects of one `resetRollover` call, in order. -/
inductive IOEvent where
  | readExpenseList
  | readBulk
  | writeUpdates
  | writeInserts
  | writeTimestamp
deriving DecidableEq, Repr

/-- The categories a `resetRollover` call operates over: the one given, or
the stored expense list (`getExpenseList`). -/
def expensesOf (expenseList : List String) (e? : Option String) :
    List String :=
  match e? with
  | some e => [e]
  | none => expenseList

theorem expensesOf_some (expenseList : List String) (c : String) :
    expensesOf expenseList (some c) = [c] := rfl

/-- The collaborator data a `resetRollover` call can observe. -/
structure Env where
  expenseList : List String
  rollovers : List RolloverEntry
  transactions : List Transaction
  expenseData : List ExpenseDataRow
  budgetHistory : List BudgetHistoryEntry
  todaysMonth : ℤ
  todaysYear : ℤ

def mkContext (env : Env) : ResetContext :=
  ⟨env.budgetHistory, buildTransactionMap env.transactions,
    buildExpenseDataMap env.expenseData, env.todaysMonth, env.todaysYear⟩

structure ResetResult where
  trace : List IOEvent
  aborted : Bool
  outs : List StepOut
  updates : List (ℤ × RolloverEntry)
  inserts : List RolloverEntry
deriving DecidableEq, Repr

/-- `resetRollover` (`rollover.ts`).  `expense? = some c` runs over the one
category, `none` loads the expense list (a storage read) and runs over all of
them.  The bulk fetch happens before the per-category loop, hence before the
future-date guard; on the guard firing (`console.error` + `return`) the
queued writes are discarded and nothing is written. -/
def resetRollover (env : Env) (startingMonth startingYear : ℤ)
    (expense? : Option String) : ResetResult :=
  let expenses := expensesOf env.expenseList expense?
  let readTrace := (match expense? with
    | some _ => ([] : List IOEvent)
    | none => [IOEvent.readExpenseList]) ++ [IOEvent.readBulk]
  let ctx := mkContext env
  let rmap := buildRolloverMap env.rollovers
  let p := processExpenses ctx startingMonth startingYear expenses rmap
  if p.2.2 then
    ⟨readTrace, true, [], [], []⟩
  else
    let outs := p.1
    let updates := (outs.filter (·.isUpdate)).map fun s => (s.rowIndex, s.record)
    let inserts := (outs.filter fun s => !s.isUpdate).map (·.record)
    ⟨readTrace ++ (if updates.isEmpty then [] else [IOEvent.writeUpdates]) ++
        (if inserts.isEmpty then [] else [IOEvent.writeInserts]) ++
        [IOEvent.writeTimestamp],
      false, outs, updates, inserts⟩

/-- Effect of the Phase-4 batched update call (`UpdateTableRows`) on the
`Rollovers` table: overwrite each queued row index in order.  Queued indices
are always the non-negative positions recorded at build time (proved below);
the guard merely keeps the model total. -/
def applyUpdates (rollovers : List RolloverEntry)
    (updates : List (ℤ × RolloverEntry)) : List RolloverEntry :=
  updates.foldl
    (fun acc u => if 0 ≤ u.1 then acc.set u.1.toNat u.2 else acc) rollovers

/-- Effect of Phase 4 on the `Rollovers` table: batched in-place updates,
then the batched insert (`WriteToTable` appends its rows). -/
def applyResetResult (rollovers : List RolloverEntry) (res : ResetResult) :
    List RolloverEntry :=
  applyUpdates rollovers res.updates ++ res.inserts

/-! ## Resolver lemmas -/

/-- Membership in the match list, unfolded. -/
theorem mem_getBudgetHistoryMatches {history : List BudgetHistoryEntry}
    {e : String} {month year : ℚ} {hm : HistoryMatch} :
    hm ∈ getBudgetHistoryMatches history e month year ↔
      ∃ target, toMonthIndex month year = some target ∧ hm.entry ∈ history ∧
        hm.entry.Expense = e ∧
        getRangeIndices hm.entry = some (hm.startIndex, hm.endIndex) ∧
        hm.startIndex ≤ target ∧ target ≤ hm.endIndex := by
  unfold getBudgetHistoryMatches
  cases htgt : toMonthIndex month year with
  | none => simp [htgt]
  | some target =>
    simp only [htgt, List.mem_filterMap, Option.some.injEq,
      exists_eq_left']
    constructor
    · rintro ⟨row, hrow, hf⟩
      by_cases he : row.Expense ≠ e
      · rw [if_pos he] at hf; cases hf
      · rw [if_neg he] at hf
        push_neg at he
        cases hr : getRangeIndices row with
        | none => rw [hr] at hf; cases hf
        | some p =>
          obtain ⟨s, en⟩ := p
          simp only [hr] at hf
          by_cases hc : s ≤ target ∧ target ≤ en
          · rw [if_pos hc] at hf
            injection hf with hf
            subst hf
            exact ⟨hrow, he, hr, hc.1, hc.2⟩
          · rw [if_neg hc] at hf; cases hf
    · rintro ⟨hmem, he, hr, hc1, hc2⟩
      refine ⟨hm.entry, hmem, ?_⟩
      rw [if_neg (by simp [he])]
      simp only [hr]
      rw [if_pos ⟨hc1, hc2⟩]

/-- Entries whose range cells do not resolve are invisible to the matcher:
filtering them away leaves the match list unchanged. -/
theorem getBudgetHistoryMatches_filter_valid (history : List BudgetHistoryEntry)
    (e : String) (month year : ℚ) :
    getBudgetHistoryMatches
        (history.filter fun row => (getRangeIndices row).isSome) e month year =
      getBudgetHistoryMatches history e month year := by
  unfold getBudgetHistoryMatches
  cases htgt : toMonthIndex month year with
  | none => simp
  | some target =>
    simp only [List.filterMap_filter]
    refine List.filterMap_congr ?_
    intro row _
    by_cases hv : (getRangeIndices row).isSome
    · simp [hv]
    · rw [Option.not_isSome_iff_eq_none] at hv
      by_cases he : row.Expense ≠ e <;> simp [hv, he]

/-- What `selectBudgetHistoryEntry` selects: nothing when there is no match,
otherwise a match with the latest `startIndex`. -/
theorem selectBudgetHistoryEntry_spec (history : List BudgetHistoryEntry)
    (e : String) (month year : ℚ) :
    (getBudgetHistoryMatches history e month year = [] →
      selectBudgetHistoryEntry history e month year = (none, [])) ∧
    (getBudgetHistoryMatches history e month year ≠ [] →
      ∃ hm ∈ getBudgetHistoryMatches history e month year,
        (∀ hm' ∈ getBudgetHistoryMatches history e month year,
          hm'.startIndex ≤ hm.startIndex) ∧
        (selectBudgetHistoryEntry history e month year).1 = some hm.entry) := by
  constructor
  · intro h
    unfold selectBudgetHistoryEntry
    simp [h]
  · intro h
    have hsorted :
        sortByStartDesc (getBudgetHistoryMatches history e month year) ≠ [] := by
      obtain ⟨x, hx⟩ := List.exists_mem_of_ne_nil _ h
      intro hnil
      exact absurd (mem_sortByStartDesc.mpr hx) (by simp [hnil])
    cases hs : sortByStartDesc (getBudgetHistoryMatches history e month year) with
    | nil => exact absurd hs hsorted
    | cons hd t =>
      refine ⟨hd, ?_, ?_, ?_⟩
      · exact mem_sortByStartDesc.mp (by simp [hs])
      · intro hm' hmem
        have h₁ : hm' ∈ hd :: t := hs ▸ mem_sortByStartDesc.mpr hmem
        exact head_max_of_sortedDesc (hs ▸ sortedDesc_sortByStartDesc _) _ h₁
      · unfold selectBudgetHistoryEntry
        simp [List.isEmpty_iff, h, hs]

/-! ## Claim theorems: the Budget-History Resolver -/

/-- **C3.** The effective budget resolved by `getBudgetInMemory` equals the
category's default budget when no budget-history entry's inclusive
`[start, end]` month-index range contains the target index, and otherwise
equals the `Amount` of a matching entry with the latest (largest) start
index; entries with non-numeric or missing range fields are skipped without
effect on the result, and every match lies in the history with a resolved
range containing the target. -/
theorem effective_budget_resolution (ctx : ResetContext) (e : String)
    (month year : ℤ) :
    (getBudgetHistoryMatches ctx.budgetHistory e (month : ℚ) (year : ℚ) = [] →
      getBudgetInMemory ctx e month year =
        ((mapGet ctx.expenseDataMap e).map (·.Budget)).getD 0) ∧
    (getBudgetHistoryMatches ctx.budgetHistory e (month : ℚ) (year : ℚ) ≠ [] →
      ∃ hm ∈ getBudgetHistoryMatches ctx.budgetHistory e (month : ℚ) (year : ℚ),
        (∀ hm' ∈ getBudgetHistoryMatches ctx.budgetHistory e (month : ℚ) (year : ℚ),
          hm'.startIndex ≤ hm.startIndex) ∧
        getBudgetInMemory ctx e month year = parseBudgetAmount hm.entry.Amount) ∧
    (getBudgetHistoryMatches
        (ctx.budgetHistory.filter fun row => (getRangeIndices row).isSome) e
        (month : ℚ) (year : ℚ) =
      getBudgetHistoryMatches ctx.budgetHistory e (month : ℚ) (year : ℚ)) ∧
    (∀ hm ∈ getBudgetHistoryMatches ctx.budgetHistory e (month : ℚ) (year : ℚ),
      hm.entry ∈ ctx.budgetHistory ∧ hm.entry.Expense = e ∧
        getRangeIndices hm.entry = some (hm.startIndex, hm.endIndex) ∧
        ∃ target, toMonthIndex (month : ℚ) (year : ℚ) = some target ∧
          hm.startIndex ≤ target ∧ target ≤ hm.endIndex) := by
  obtain ⟨hnone, hsome⟩ :=
    selectBudgetHistoryEntry_spec ctx.budgetHistory e (month : ℚ) (year : ℚ)
  refine ⟨?_, ?_, ?_, ?_⟩
  · intro h
    unfold getBudgetInMemory
    rw [hnone h]
  · intro h
    obtain ⟨hm, hmem, hmax, hsel⟩ := hsome h
    refine ⟨hm, hmem, hmax, ?_⟩
    unfold getBudgetInMemory
    rw [hsel]
  · exact getBudgetHistoryMatches_filter_valid _ _ _ _
  · intro hm hmem
    obtain ⟨target, htgt, h₁, h₂, h₃, h₄, h₅⟩ :=
      mem_getBudgetHistoryMatches.mp hmem
    exact ⟨h₁, h₂, h₃, target, htgt, h₄, h₅⟩

/-- Concrete budget history for witnesses: the spec's Scenario C override
plus an overlapping later-start override and a row with a missing range
cell. -/
def historyFixture : List BudgetHistoryEntry :=
  [⟨"Phones", some 1, some 2023, some 3, some 2023, some 250⟩,
   ⟨"Phones", none, some 2023, some 3, some 2023, some 999⟩,
   ⟨"Phones", some 2, some 2023, some 3, some 2023, some 300⟩]

def ctxFixture : ResetContext :=
  ⟨historyFixture, [], [("Phones", ⟨200, 0⟩)], 2, 2023⟩

theorem historyFixture_matches :
    getBudgetHistoryMatches historyFixture "Phones"
        ((2 : ℤ) : ℚ) ((2023 : ℤ) : ℚ) =
      [⟨⟨"Phones", some 1, some 2023, some 3, some 2023, some 250⟩,
         24276, 24278⟩,
       ⟨⟨"Phones", some 2, some 2023, some 3, some 2023, some 300⟩,
         24277, 24278⟩] := by
  norm_num [historyFixture, getBudgetHistoryMatches, toMonthIndex,
    getRangeIndices, List.filterMap_cons]

/-- Witness for C3 at a concrete input. -/
theorem effective_budget_resolution_witness :
    getBudgetHistoryMatches historyFixture "Phones"
        ((2 : ℤ) : ℚ) ((2023 : ℤ) : ℚ) ≠ [] ∧
      getBudgetInMemory ctxFixture "Phones" 2 2023 = 300 := by
  have hne : getBudgetHistoryMatches historyFixture "Phones"
      ((2 : ℤ) : ℚ) ((2023 : ℤ) : ℚ) ≠ [] := by
    rw [historyFixture_matches]; simp
  obtain ⟨hm, hmem, hmax, hbud⟩ :=
    (effective_budget_resolution ctxFixture "Phones" 2 2023).2.1 hne
  refine ⟨hne, ?_⟩
  rw [show ctxFixture.budgetHistory = historyFixture from rfl,
    historyFixture_matches] at hmem hmax
  have h₂ := hmax ⟨⟨"Phones", some 2, some 2023, some 3, some 2023, some 300⟩,
    24277, 24278⟩ (by simp)
  have hm3 : hm = ⟨⟨"Phones", some 2, some 2023, some 3, some 2023, some 300⟩,
      24277, 24278⟩ := by
    rcases List.mem_cons.mp hmem with h | h
    · rw [h] at h₂; norm_num at h₂
    · simpa using h
  rw [hbud, hm3]
  norm_num [parseBudgetAmount]

/-! ## Claim theorems: single-period resolver and updater -/

/-- **C6.** `getRollover` with zero persisted matches creates, persists and
returns a record whose `Expenses` is the summed amount of the matching
transactions and whose `BOM`/`EOM` both equal the category's initial amount;
with exactly one match it returns that record unmodified and writes nothing;
with several matches it warns and returns the first in storage iteration
order without writing. -/
theorem getRollover_spec (rollovers : List RolloverEntry)
    (transactions : List Transaction) (expenseData : List ExpenseDataRow)
    (month year : ℤ) (e : String) :
    (∀ init,
      ((rollovers.filter fun r => r.Month = month ∧ r.Year = year).filter
        fun r => r.Expense = e) = [] →
      getInitialAmount expenseData e = some init →
      getRollover rollovers transactions expenseData month year e =
        some ⟨⟨month, year, e, sumMatchingAmounts transactions month year e,
            init, init⟩,
          some ⟨month, year, e, sumMatchingAmounts transactions month year e,
            init, init⟩, false⟩) ∧
    (∀ r,
      ((rollovers.filter fun r => r.Month = month ∧ r.Year = year).filter
        fun r => r.Expense = e) = [r] →
      getRollover rollovers transactions expenseData month year e =
        some ⟨r, none, false⟩) ∧
    (∀ r r₂ rest,
      ((rollovers.filter fun r => r.Month = month ∧ r.Year = year).filter
        fun r => r.Expense = e) = r :: r₂ :: rest →
      getRollover rollovers transactions expenseData month year e =
        some ⟨r, none, true⟩) ∧
    sumMatchingAmounts transactions month year e =
      (((transactions.filter fun t => t.Month = month ∧ t.Year = year).filter
        fun t => t.Expense = e).map (·.Amount)).sum := by
  refine ⟨?_, ?_, ?_, ?_⟩
  · intro init h hinit
    unfold getRollover
    rw [h, hinit]
  · intro r h
    unfold getRollover
    rw [h]
  · intro r r₂ rest h
    unfold getRollover
    rw [h]
  · rw [List.sum_eq_foldl, List.foldl_map]
    rfl

/-- Witness for C6: the creation path on a concrete store. -/
theorem getRollover_spec_witness :
    getRollover [] [⟨1, 2023, "Food", "Food", -25⟩] [⟨"Food", some 100, some 7⟩]
        1 2023 "Food" =
      some ⟨⟨1, 2023, "Food", -25, 7, 7⟩, some ⟨1, 2023, "Food", -25, 7, 7⟩,
        false⟩ := by
  have h := (getRollover_spec [] [⟨1, 2023, "Food", "Food", -25⟩]
    [⟨"Food", some 100, some 7⟩] 1 2023 "Food").1 7 (by simp)
    (by rfl)
  rw [h]
  norm_num [sumMatchingAmounts, List.filter]

/-- **C7.** `updateRollover` fails with the "no matching row" error exactly
when no persisted row carries the entry's (Month, Year, Expense) key, and in
that case returns no new table state; when a match exists it overwrites the
(first) matching row in place at its positional index, leaving the length
and every other row unchanged. -/
theorem updateRollover_spec (rollovers : List RolloverEntry)
    (entry : RolloverEntry) :
    ((∀ row ∈ rollovers, ¬(row.Month = entry.Month ∧ row.Year = entry.Year ∧
        row.Expense = entry.Expense)) ↔
      updateRollover rollovers entry = .error "No matching row found.") ∧
    ((∃ row ∈ rollovers, row.Month = entry.Month ∧ row.Year = entry.Year ∧
        row.Expense = entry.Expense) →
      ∃ i, ∃ h₁ : i < rollovers.length,
        rollovers[i].Month = entry.Month ∧ rollovers[i].Year = entry.Year ∧
        rollovers[i].Expense = entry.Expense ∧
        updateRollover rollovers entry = .ok (rollovers.set i entry) ∧
        (rollovers.set i entry).length = rollovers.length ∧
        (rollovers.set i entry)[i]? = some entry ∧
        ∀ j, j ≠ i → (rollovers.set i entry)[j]? = rollovers[j]?) := by
  constructor
  · constructor
    · intro h
      have hnone : rollovers.findIdx? (fun row =>
          decide (row.Month = entry.Month ∧ row.Year = entry.Year ∧
            row.Expense = entry.Expense)) = none := by
        rw [List.findIdx?_eq_none_iff]
        intro x hx
        simpa using h x hx
      unfold updateRollover
      rw [hnone]
    · intro h row hrow hkey
      cases hfind : rollovers.findIdx? (fun row =>
          decide (row.Month = entry.Month ∧ row.Year = entry.Year ∧
            row.Expense = entry.Expense)) with
      | none =>
        have := List.findIdx?_eq_none_iff.mp hfind row hrow
        simp [hkey.1, hkey.2.1, hkey.2.2] at this
      | some i =>
        unfold updateRollover at h
        rw [hfind] at h
        cases h
  · intro h
    cases hfind : rollovers.findIdx? (fun row =>
        decide (row.Month = entry.Month ∧ row.Year = entry.Year ∧
          row.Expense = entry.Expense)) with
    | none =>
      obtain ⟨row, hrow, hkey⟩ := h
      have := List.findIdx?_eq_none_iff.mp hfind row hrow
      simp [hkey.1, hkey.2.1, hkey.2.2] at this
    | some i =>
      obtain ⟨h₁, hp, -⟩ := List.findIdx?_eq_some_iff_getElem.mp hfind
      have hkey : rollovers[i].Month = entry.Month ∧
          rollovers[i].Year = entry.Year ∧
          rollovers[i].Expense = entry.Expense := by simpa using hp
      refine ⟨i, h₁, hkey.1, hkey.2.1, hkey.2.2, ?_, List.length_set .., ?_, ?_⟩
      · unfold updateRollover
        rw [hfind]
      · exact List.getElem?_set_self (by simpa using h₁)
      · intro j hj
        exact List.getElem?_set_ne (fun hij => hj hij.symm)

/-- Witness for C7: overwriting the second of two rows. -/
theorem updateRollover_spec_witness :
    updateRollover
        [⟨1, 2023, "Rent", 0, 0, 0⟩, ⟨2, 2023, "Rent", 0, 0, 0⟩]
        ⟨2, 2023, "Rent", 5, 6, 7⟩ =
      .ok [⟨1, 2023, "Rent", 0, 0, 0⟩, ⟨2, 2023, "Rent", 5, 6, 7⟩] := by
  obtain ⟨i, h₁, hm, hy, he, hok, -, -, -⟩ :=
    (updateRollover_spec
      [⟨1, 2023, "Rent", 0, 0, 0⟩, ⟨2, 2023, "Rent", 0, 0, 0⟩]
      ⟨2, 2023, "Rent", 5, 6, 7⟩).2
      ⟨⟨2, 2023, "Rent", 0, 0, 0⟩, by simp, by simp⟩
  have hi : i = 1 := by
    have h₂ : i < 2 := by simpa using h₁
    match i, h₂ with
    | 0, _ => simp at hm
    | 1, _ => rfl
  rw [hok, hi]
  rfl

/-- **C10.** A target month outside `1..12` produces no matches and no
selection (the resolver is a total function, so it cannot throw), and the
in-memory budget lookup then falls back to the category's default budget. -/
theorem resolver_out_of_range_total :
    (∀ (history : List BudgetHistoryEntry) (e : String) (month year : ℚ),
      (month < 1 ∨ 12 < month) →
        getBudgetHistoryMatches history e month year = [] ∧
        selectBudgetHistoryEntry history e month year = (none, [])) ∧
    (∀ (ctx : ResetContext) (e : String) (month year : ℤ),
      ((month : ℚ) < 1 ∨ 12 < (month : ℚ)) →
        getBudgetInMemory ctx e month year =
          ((mapGet ctx.expenseDataMap e).map (·.Budget)).getD 0) := by
  have hmatches : ∀ (history : List BudgetHistoryEntry) (e : String)
      (month year : ℚ), (month < 1 ∨ 12 < month) →
      getBudgetHistoryMatches history e month year = [] := by
    intro history e month year h
    unfold getBudgetHistoryMatches toMonthIndex
    rw [if_pos h]
  refine ⟨fun history e month year h => ⟨hmatches _ _ _ _ h, ?_⟩,
    fun ctx e month year h => ?_⟩
  · unfold selectBudgetHistoryEntry
    simp [hmatches _ _ _ _ h]
  · unfold getBudgetInMemory
    rw [(selectBudgetHistoryEntry_spec ctx.budgetHistory e _ _).1
      (hmatches _ _ _ _ h)]

/-- Witness for C10 at month 13. -/
theorem resolver_out_of_range_total_witness :
    getBudgetHistoryMatches
        [⟨"A", some 1, some 2000, some 12, some 3000, some 5⟩] "A"
        (13 : ℚ) (2024 : ℚ) = [] ∧
      getBudgetInMemory ⟨[], [], [("A", ⟨42, 0⟩)], 1, 2024⟩ "A" 13 2024 = 42 := by
  constructor
  · exact ((resolver_out_of_range_total.1
      [⟨"A", some 1, some 2000, some 12, some 3000, some 5⟩] "A" 13 2024
      (by norm_num)).1)
  · rw [(resolver_out_of_range_total.2 ⟨[], [], [("A", ⟨42, 0⟩)], 1, 2024⟩
      "A" 13 2024 (by norm_num))]
    rfl

/-! ## Walk machinery

Shared lemmas about the forward walk of `resetRollover`. -/

/-- A combined get-after-set lemma. -/
theorem mapGet_mapSet {α β : Type} [DecidableEq α]
    (l : List (α × β)) (k k₂ : α) (v : β) :
    mapGet (mapSet l k v) k₂ = if k = k₂ then some v else mapGet l k₂ := by
  by_cases h : k = k₂
  · subst h; rw [if_pos rfl]; exact mapGet_mapSet_self l k v
  · rw [if_neg h]; exact mapGet_mapSet_ne l k k₂ v h

/-- The summed signed transaction total for a (month, year, category) key:
what the spec calls PeriodSpend. -/
def periodSpend (transactions : List Transaction) (month year : ℤ)
    (e : String) : ℚ :=
  ((transactions.filter fun t =>
    t.Month = month ∧ t.Year = year ∧ t.ExpenseType = e).map (·.Amount)).sum

theorem buildTransactionMap_total (transactions : List Transaction) (k : RKey) :
    ((mapGet (buildTransactionMap transactions) k).map (·.total)).getD 0 =
      periodSpend transactions k.month k.year k.expense := by
  suffices h : ∀ (ts : List Transaction) (acc : List (RKey × SpendTally)),
      ((mapGet (ts.foldl (fun m t =>
          let key : RKey := ⟨t.Month, t.Year, t.ExpenseType⟩
          let current := (mapGet m key).getD ⟨0, 0⟩
          mapSet m key ⟨current.total + t.Amount, current.count + 1⟩) acc)
        k).map (·.total)).getD 0 =
        ((mapGet acc k).map (·.total)).getD 0 +
          periodSpend ts k.month k.year k.expense by
    have := h transactions []
    simpa [buildTransactionMap, mapGet, periodSpend] using this
  intro ts
  induction ts with
  | nil => intro acc; simp [periodSpend]
  | cons t ts ih =>
    intro acc
    rw [List.foldl_cons, ih]
    by_cases hk : (⟨t.Month, t.Year, t.ExpenseType⟩ : RKey) = k
    · subst hk
      simp only [mapGet_mapSet_self, Option.map_some, Option.getD_some,
        periodSpend, List.filter_cons]
      rw [if_pos (by simp)]
      simp only [List.map_cons, List.sum_cons]
      cases hacc : mapGet acc (⟨t.Month, t.Year, t.ExpenseType⟩ : RKey) with
      | none => simp [hacc]
      | some v => simp [hacc]; ring
    · have hfields : ¬(t.Month = k.month ∧ t.Year = k.year ∧
          t.ExpenseType = k.expense) := by
        intro hc
        exact hk (by cases k; simp_all)
      simp only [mapGet_mapSet, if_neg hk, periodSpend, List.filter_cons]
      rw [if_neg (by simpa using hfields)]

/-- A rollover map is well-keyed when every slot's entry carries the fields
of its own key; all maps arising in the engine are. -/
def WellKeyed (rmap : RolloverMap) : Prop :=
  ∀ k slot, mapGet rmap k = some slot → rolloverKey slot.entry = k

theorem wellKeyed_nil : WellKeyed [] := by
  intro k slot h
  simp [mapGet] at h

theorem wellKeyed_mapSet {rmap : RolloverMap} (h : WellKeyed rmap)
    (r : RolloverEntry) (i : ℤ) :
    WellKeyed (mapSet rmap (rolloverKey r) ⟨r, i⟩) := by
  intro k slot hget
  rw [mapGet_mapSet] at hget
  by_cases hk : rolloverKey r = k
  · rw [if_pos hk] at hget
    injection hget with hget
    rw [← hget]
    exact hk
  · rw [if_neg hk] at hget
    exact h k slot hget

theorem wellKeyed_buildRolloverMapAux :
    ∀ (l : List RolloverEntry) (i : ℕ) (m : RolloverMap),
      WellKeyed m → WellKeyed (buildRolloverMapAux i l m) := by
  intro l
  induction l with
  | nil => intro i m hm; exact hm
  | cons r rest ih =>
    intro i m hm
    exact ih (i + 1) _ (wellKeyed_mapSet hm r i)

theorem wellKeyed_buildRolloverMap (rollovers : List RolloverEntry) :
    WellKeyed (buildRolloverMap rollovers) :=
  wellKeyed_buildRolloverMapAux rollovers 0 [] wellKeyed_nil

/-- The previous-period EOM resolved by a walk step: the in-memory previous
month's closing balance, else the category's initial amount. -/
def prevEOMOf (ctx : ResetContext) (e : String) (m y : ℤ)
    (rmap : RolloverMap) : ℚ :=
  match mapGet rmap ⟨(prevMonthYear m y).1, (prevMonthYear m y).2, e⟩ with
  | some prevSlot => prevSlot.entry.EOM
  | none => getInitialAmountInMemory ctx e

/-- The period spend resolved by a walk step. -/
def spendOf (ctx : ResetContext) (e : String) (m y : ℤ) : ℚ :=
  ((mapGet ctx.transactionMap ⟨m, y, e⟩).map (·.total)).getD 0

/-- The row index a walk step queues: the stored index on the update path,
`-1` on the insert path. -/
def stepIndexOf (e : String) (m y : ℤ) (rmap : RolloverMap) : ℤ :=
  match mapGet rmap ⟨m, y, e⟩ with
  | some cur => cur.index
  | none => -1

/-- The record a walk step computes. -/
def stepRecordOf (ctx : ResetContext) (e : String) (m y : ℤ)
    (rmap : RolloverMap) : RolloverEntry :=
  ⟨m, y, e, spendOf ctx e m y, prevEOMOf ctx e m y rmap,
    prevEOMOf ctx e m y rmap + getBudgetInMemory ctx e m y + spendOf ctx e m y⟩

/-- On a well-keyed map, one loop iteration computes `stepRecordOf`, flags
the update case by the presence of the current key, and feeds the record
back into the map under the current key. -/
theorem walkStep_eq (ctx : ResetContext) (e : String) (m y : ℤ)
    (rmap : RolloverMap) (hwk : WellKeyed rmap) :
    walkStep ctx e m y rmap =
      (⟨(mapGet rmap ⟨m, y, e⟩).isSome, stepIndexOf e m y rmap,
          stepRecordOf ctx e m y rmap⟩,
        mapSet rmap ⟨m, y, e⟩
          ⟨stepRecordOf ctx e m y rmap, stepIndexOf e m y rmap⟩) := by
  unfold walkStep stepRecordOf stepIndexOf spendOf prevEOMOf
  cases hcur : mapGet rmap ⟨m, y, e⟩ with
  | none => simp [hcur]
  | some cur =>
    have hk := hwk _ _ hcur
    have h₁ : cur.entry.Month = m := congrArg RKey.month hk
    have h₂ : cur.entry.Year = y := congrArg RKey.year hk
    have h₃ : cur.entry.Expense = e := congrArg RKey.expense hk
    simp [hcur, h₁, h₂, h₃]

theorem wellKeyed_walkStep {ctx : ResetContext} {e : String} {m y : ℤ}
    {rmap : RolloverMap} (hwk : WellKeyed rmap) :
    WellKeyed (walkStep ctx e m y rmap).2 := by
  rw [walkStep_eq ctx e m y rmap hwk]
  have : (⟨m, y, e⟩ : RKey) = rolloverKey (stepRecordOf ctx e m y rmap) := rfl
  rw [this]
  exact wellKeyed_mapSet hwk _ _

/-! ### Month arithmetic -/

theorem nextMonthYear_index (m y : ℤ) :
    (nextMonthYear m y).2 * 12 + (nextMonthYear m y).1 = y * 12 + m + 1 := by
  unfold nextMonthYear
  by_cases h : m + 1 = 13
  · rw [if_pos h]; simp; omega
  · rw [if_neg h]; simp; ring

theorem nextMonthYear_bounds {m y : ℤ} (h1 : 1 ≤ m) (h2 : m ≤ 12) :
    1 ≤ (nextMonthYear m y).1 ∧ (nextMonthYear m y).1 ≤ 12 := by
  unfold nextMonthYear
  by_cases h : m + 1 = 13
  · rw [if_pos h]; simp
  · rw [if_neg h]; constructor <;> simp <;> omega

theorem prevMonthYear_nextMonthYear {m y : ℤ} (h1 : 1 ≤ m) (h2 : m ≤ 12) :
    prevMonthYear (nextMonthYear m y).1 (nextMonthYear m y).2 = (m, y) := by
  unfold prevMonthYear nextMonthYear
  by_cases h : m + 1 = 13
  · rw [if_pos h]
    norm_num
    omega
  · rw [if_neg h]
    simp only
    rw [if_neg (by omega)]
    simp

/-! ### Unfolding the walk -/

theorem walk_zero (ctx : ResetContext) (e : String) (m y : ℤ)
    (rmap : RolloverMap) : walk ctx e m y 0 rmap = ([], rmap) := rfl

theorem walk_succ_pos (ctx : ResetContext) (e : String) (m y : ℤ)
    (fuel : ℕ) (rmap : RolloverMap)
    (h : y < ctx.todaysYear ∨ (y = ctx.todaysYear ∧ m ≤ ctx.todaysMonth)) :
    walk ctx e m y (fuel + 1) rmap =
      ((walkStep ctx e m y rmap).1 ::
          (walk ctx e (nextMonthYear m y).1 (nextMonthYear m y).2 fuel
            (walkStep ctx e m y rmap).2).1,
        (walk ctx e (nextMonthYear m y).1 (nextMonthYear m y).2 fuel
          (walkStep ctx e m y rmap).2).2) := by
  conv_lhs => unfold walk
  rw [if_pos h]

theorem walk_succ_neg (ctx : ResetContext) (e : String) (m y : ℤ)
    (fuel : ℕ) (rmap : RolloverMap)
    (h : ¬(y < ctx.todaysYear ∨ (y = ctx.todaysYear ∧ m ≤ ctx.todaysMonth))) :
    walk ctx e m y (fuel + 1) rmap = ([], rmap) := by
  conv_lhs => unfold walk
  rw [if_neg h]

theorem wellKeyed_walk (ctx : ResetContext) (e : String) :
    ∀ (fuel : ℕ) (m y : ℤ) (rmap : RolloverMap), WellKeyed rmap →
      WellKeyed (walk ctx e m y fuel rmap).2 := by
  intro fuel
  induction fuel with
  | zero => intro m y rmap h; exact h
  | succ fuel ih =>
    intro m y rmap h
    by_cases hc : y < ctx.todaysYear ∨
        (y = ctx.todaysYear ∧ m ≤ ctx.todaysMonth)
    · rw [walk_succ_pos ctx e m y fuel rmap hc]
      exact ih _ _ _ (wellKeyed_walkStep h)
    · rw [walk_succ_neg ctx e m y fuel rmap hc]
      exact h

/-- The property C1 asserts of every queued record, with the spend still in
map-lookup form. -/
def BalancedRecord (ctx : ResetContext) (r : RolloverEntry) : Prop :=
  r.EOM = r.BOM + getBudgetInMemory ctx r.Expense r.Month r.Year +
    spendOf ctx r.Expense r.Month r.Year

theorem walk_balanced (ctx : ResetContext) (e : String) :
    ∀ (fuel : ℕ) (m y : ℤ) (rmap : RolloverMap), WellKeyed rmap →
      ∀ s ∈ (walk ctx e m y fuel rmap).1, BalancedRecord ctx s.record := by
  intro fuel
  induction fuel with
  | zero => intro m y rmap _ s hs; simp [walk_zero] at hs
  | succ fuel ih =>
    intro m y rmap hwk s hs
    by_cases hc : y < ctx.todaysYear ∨
        (y = ctx.todaysYear ∧ m ≤ ctx.todaysMonth)
    · rw [walk_succ_pos ctx e m y fuel rmap hc] at hs
      rcases List.mem_cons.mp hs with hs | hs
      · rw [hs, walkStep_eq ctx e m y rmap hwk]
        simp [BalancedRecord, stepRecordOf]
      · exact ih _ _ _ (wellKeyed_walkStep hwk) s hs
    · rw [walk_succ_neg ctx e m y fuel rmap hc] at hs
      simp at hs

theorem processExpenses_balanced (ctx : ResetContext) (sM sY : ℤ) :
    ∀ (expenses : List String) (rmap : RolloverMap), WellKeyed rmap →
      ∀ s ∈ (processExpenses ctx sM sY expenses rmap).1,
        BalancedRecord ctx s.record := by
  intro expenses
  induction expenses with
  | nil => intro rmap _ s hs; simp [processExpenses] at hs
  | cons e rest ih =>
    intro rmap hwk s hs
    unfold processExpenses at hs
    by_cases hg : sY > ctx.todaysYear ∨
        (sY = ctx.todaysYear ∧ sM > ctx.todaysMonth)
    · rw [if_pos hg] at hs; simp at hs
    · rw [if_neg hg] at hs
      simp only [List.mem_append] at hs
      rcases hs with hs | hs
      · exact walk_balanced ctx e 24 sM sY rmap hwk s hs
      · exact ih _ (wellKeyed_walk ctx e 24 sM sY rmap hwk) s hs

/-! ### Shape lemmas for `resetRollover` -/

theorem resetRollover_outs_subset (env : Env) (sM sY : ℤ) (e? : Option String) :
    ∀ s ∈ (resetRollover env sM sY e?).outs,
      s ∈ (processExpenses (mkContext env) sM sY
        (expensesOf env.expenseList e?)
        (buildRolloverMap env.rollovers)).1 := by
  unfold resetRollover
  by_cases habort : (processExpenses (mkContext env) sM sY
      (expensesOf env.expenseList e?)
      (buildRolloverMap env.rollovers)).2.2
  · simp [habort]
  · simp only [habort, Bool.false_eq_true, if_false]
    exact fun s hs => hs

theorem resetRollover_updates_eq (env : Env) (sM sY : ℤ) (e? : Option String) :
    (resetRollover env sM sY e?).updates =
      ((resetRollover env sM sY e?).outs.filter (·.isUpdate)).map
        fun s => (s.rowIndex, s.record) := by
  unfold resetRollover
  by_cases habort : (processExpenses (mkContext env) sM sY
      (expensesOf env.expenseList e?)
      (buildRolloverMap env.rollovers)).2.2 <;>
    simp [habort]

theorem resetRollover_inserts_eq (env : Env) (sM sY : ℤ) (e? : Option String) :
    (resetRollover env sM sY e?).inserts =
      ((resetRollover env sM sY e?).outs.filter fun s => !s.isUpdate).map
        (·.record) := by
  unfold resetRollover
  by_cases habort : (processExpenses (mkContext env) sM sY
      (expensesOf env.expenseList e?)
      (buildRolloverMap env.rollovers)).2.2 <;>
    simp [habort]

/-! ## Claim theorem: the balance equation (C1) -/

/-- **C1.** Every record queued by a `resetRollover` forward walk — update or
insert — satisfies `EOM = BOM + effective budget + PeriodSpend`, where the
effective budget is resolved by `getBudgetInMemory` at the record's own
(category, month, year) and PeriodSpend is the summed signed transaction
total for that key (`0` when no transaction matches). -/
theorem rollover_balance_equation (env : Env) (sM sY : ℤ)
    (e? : Option String) :
    (∀ p ∈ (resetRollover env sM sY e?).updates,
      p.2.EOM = p.2.BOM +
        getBudgetInMemory (mkContext env) p.2.Expense p.2.Month p.2.Year +
        periodSpend env.transactions p.2.Month p.2.Year p.2.Expense) ∧
    (∀ r ∈ (resetRollover env sM sY e?).inserts,
      r.EOM = r.BOM +
        getBudgetInMemory (mkContext env) r.Expense r.Month r.Year +
        periodSpend env.transactions r.Month r.Year r.Expense) := by
  have hspend : ∀ (m y : ℤ) (e : String),
      spendOf (mkContext env) e m y = periodSpend env.transactions m y e := by
    intro m y e
    exact buildTransactionMap_total env.transactions ⟨m, y, e⟩
  have hout : ∀ s ∈ (resetRollover env sM sY e?).outs,
      BalancedRecord (mkContext env) s.record := by
    intro s hs
    exact processExpenses_balanced (mkContext env) sM sY _ _
      (wellKeyed_buildRolloverMap env.rollovers) s
      (resetRollover_outs_subset env sM sY e? s hs)
  constructor
  · intro p hp
    rw [resetRollover_updates_eq] at hp
    obtain ⟨s, hsmem, hsp⟩ := List.mem_map.mp hp
    have := hout s (List.mem_filter.mp hsmem).1
    rw [← hsp]
    simpa [BalancedRecord, hspend] using this
  · intro r hr
    rw [resetRollover_inserts_eq] at hr
    obtain ⟨s, hsmem, hsp⟩ := List.mem_map.mp hr
    have := hout s (List.mem_filter.mp hsmem).1
    rw [← hsp]
    simpa [BalancedRecord, hspend] using this

/-! ## Claim theorem: forward chaining (C2) -/

/-- The opening balance of the first record a walk queues is the resolved
previous-period EOM of its starting month. -/
theorem walk_head_bom (ctx : ResetContext) (e : String) (fuel : ℕ) (m y : ℤ)
    (rmap : RolloverMap) (r : RolloverEntry) (hwk : WellKeyed rmap)
    (h : ((walk ctx e m y fuel rmap).1.map (·.record)).head? = some r) :
    r.BOM = prevEOMOf ctx e m y rmap := by
  cases fuel with
  | zero => simp [walk_zero] at h
  | succ fuel =>
    by_cases hc : y < ctx.todaysYear ∨
        (y = ctx.todaysYear ∧ m ≤ ctx.todaysMonth)
    · rw [walk_succ_pos ctx e m y fuel rmap hc] at h
      simp only [List.map_cons, List.head?_cons, Option.some.injEq] at h
      rw [walkStep_eq ctx e m y rmap hwk] at h
      rw [← h]
      rfl
    · rw [walk_succ_neg ctx e m y fuel rmap hc] at h
      simp at h

/-- **C2.** Within one per-category walk, each queued record's opening
balance equals the closing balance of the record queued for the previous
month (both on the update path and on the insert path, thanks to the
in-memory feed-forward into the map); and when no period for the category
exists anywhere in the map, the first record's opening balance is the
category's initial amount. -/
theorem rollover_chaining (ctx : ResetContext) (e : String) (m y : ℤ)
    (fuel : ℕ) (rmap : RolloverMap) (hwk : WellKeyed rmap)
    (h1 : 1 ≤ m) (h2 : m ≤ 12) :
    List.Chain' (fun a b => b.BOM = a.EOM)
      ((walk ctx e m y fuel rmap).1.map (·.record)) ∧
    ((∀ m' y' : ℤ, mapGet rmap ⟨m', y', e⟩ = none) →
      ∀ r, ((walk ctx e m y fuel rmap).1.map (·.record)).head? = some r →
        r.BOM = getInitialAmountInMemory ctx e) := by
  constructor
  · induction fuel generalizing m y rmap with
    | zero => simp [walk_zero]
    | succ fuel ih =>
      by_cases hc : y < ctx.todaysYear ∨
          (y = ctx.todaysYear ∧ m ≤ ctx.todaysMonth)
      · rw [walk_succ_pos ctx e m y fuel rmap hc]
        simp only [List.map_cons]
        rw [List.chain'_cons']
        constructor
        · intro r hr
          have hb := walk_head_bom ctx e fuel (nextMonthYear m y).1
            (nextMonthYear m y).2 (walkStep ctx e m y rmap).2 r
            (wellKeyed_walkStep hwk) hr
          rw [hb]
          unfold prevEOMOf
          rw [prevMonthYear_nextMonthYear h1 h2]
          rw [walkStep_eq ctx e m y rmap hwk]
          simp [mapGet_mapSet_self, stepRecordOf]
        · exact ih (nextMonthYear m y).1 (nextMonthYear m y).2 _
            (wellKeyed_walkStep hwk) (nextMonthYear_bounds h1 h2).1
            (nextMonthYear_bounds h1 h2).2
      · rw [walk_succ_neg ctx e m y fuel rmap hc]
        simp
  · intro hnone r hr
    rw [walk_head_bom ctx e fuel m y rmap r hwk hr]
    unfold prevEOMOf
    rw [hnone]

/-- The spec's Scenario B as a concrete environment. -/
def envFixtureB : Env :=
  { expenseList := ["Expense1", "Expense2"]
    rollovers := [⟨12, 2022, "Expense1", 0, 0, 50⟩,
                  ⟨12, 2022, "Expense2", 0, 0, 70⟩]
    transactions := [⟨1, 2023, "Expense1", "Expense1", 50⟩,
                     ⟨1, 2023, "Expense2", "Expense2", 50⟩,
                     ⟨2, 2023, "Expense1", "Expense1", 50⟩,
                     ⟨2, 2023, "Expense2", "Expense2", 50⟩]
    expenseData := [⟨"Expense1", some 100, some 0⟩,
                    ⟨"Expense2", some 100, some 0⟩]
    budgetHistory := []
    todaysMonth := 2
    todaysYear := 2023 }

/-- Witness for C2: the two-month walk of Scenario B starting from an empty
in-memory map. -/
theorem rollover_chaining_witness :
    List.Chain' (fun a b => b.BOM = a.EOM)
      ((walk (mkContext envFixtureB) "Expense1" 1 2023 24 []).1.map
        (·.record)) ∧
    (∀ r, ((walk (mkContext envFixtureB) "Expense1" 1 2023 24 []).1.map
        (·.record)).head? = some r →
      r.BOM = getInitialAmountInMemory (mkContext envFixtureB) "Expense1") := by
  have h := rollover_chaining (mkContext envFixtureB) "Expense1" 1 2023 24 []
    wellKeyed_nil (by norm_num) (by norm_num)
  exact ⟨h.1, h.2 fun m' y' => rfl⟩

/-! ## Claim theorem: the 24-step cap (C8) -/

/-- The number of months from (m, y) through today, inclusive (0 when the
start lies in the future). -/
def spanOf (ctx : ResetContext) (m y : ℤ) : ℕ :=
  ((ctx.todaysYear * 12 + ctx.todaysMonth) - (y * 12 + m) + 1).toNat

/-- The month reached after `n` forward steps. -/
def monthStepN (m y : ℤ) : ℕ → ℤ × ℤ
  | 0 => (m, y)
  | n + 1 => monthStepN (nextMonthYear m y).1 (nextMonthYear m y).2 n

theorem walk_length (ctx : ResetContext) (e : String)
    (h3 : 1 ≤ ctx.todaysMonth) (h4 : ctx.todaysMonth ≤ 12) :
    ∀ (fuel : ℕ) (m y : ℤ) (rmap : RolloverMap), 1 ≤ m → m ≤ 12 →
      (walk ctx e m y fuel rmap).1.length = min (spanOf ctx m y) fuel := by
  intro fuel
  induction fuel with
  | zero => intro m y rmap _ _; simp [walk_zero]
  | succ fuel ih =>
    intro m y rmap h1 h2
    by_cases hc : y < ctx.todaysYear ∨
        (y = ctx.todaysYear ∧ m ≤ ctx.todaysMonth)
    · rw [walk_succ_pos ctx e m y fuel rmap hc]
      simp only [List.length_cons]
      rw [ih (nextMonthYear m y).1 (nextMonthYear m y).2 _
        (nextMonthYear_bounds h1 h2).1 (nextMonthYear_bounds h1 h2).2]
      have hidx := nextMonthYear_index m y
      have hcz : y * 12 + m ≤ ctx.todaysYear * 12 + ctx.todaysMonth := by
        rcases hc with h | ⟨h, h'⟩ <;> omega
      simp only [spanOf]
      omega
    · rw [walk_succ_neg ctx e m y fuel rmap hc]
      simp only [List.length_nil]
      simp only [spanOf]
      rw [not_or, not_and, not_lt] at hc
      have := hc.2
      rcases lt_or_eq_of_le hc.1 with h | h
      · omega
      · have := hc.2 h.symm
        omega

/-- The months a walk processes form the consecutive schedule from its
start. -/
theorem walk_months (ctx : ResetContext) (e : String) :
    ∀ (fuel : ℕ) (m y : ℤ) (rmap : RolloverMap), WellKeyed rmap →
      (walk ctx e m y fuel rmap).1.map
          (fun s => (s.record.Month, s.record.Year)) =
        (List.range (walk ctx e m y fuel rmap).1.length).map
          (monthStepN m y) := by
  intro fuel
  induction fuel with
  | zero => intro m y rmap _; simp [walk_zero]
  | succ fuel ih =>
    intro m y rmap hwk
    by_cases hc : y < ctx.todaysYear ∨
        (y = ctx.todaysYear ∧ m ≤ ctx.todaysMonth)
    · rw [walk_succ_pos ctx e m y fuel rmap hc]
      simp only [List.map_cons, List.length_cons, List.range_succ_eq_map,
        List.map_map]
      refine congrArg₂ List.cons ?_ ?_
      · rw [walkStep_eq ctx e m y rmap hwk]
        rfl
      · rw [ih (nextMonthYear m y).1 (nextMonthYear m y).2 _
          (wellKeyed_walkStep hwk)]
        rfl
    · rw [walk_succ_neg ctx e m y fuel rmap hc]
      simp

/-- **C8.** The per-category walk performs at most 24 steps: it processes
exactly the first `min(span, 24)` months of the schedule from its start
through today (months beyond the 24th are silently not processed and get no
record), and it always terminates — the model is a total function and queues
no error. -/
theorem walk_iteration_cap (ctx : ResetContext) (e : String) (m y : ℤ)
    (rmap : RolloverMap) (hwk : WellKeyed rmap) (h1 : 1 ≤ m) (h2 : m ≤ 12)
    (h3 : 1 ≤ ctx.todaysMonth) (h4 : ctx.todaysMonth ≤ 12) :
    (walk ctx e m y 24 rmap).1.length = min (spanOf ctx m y) 24 ∧
    (walk ctx e m y 24 rmap).1.length ≤ 24 ∧
    (walk ctx e m y 24 rmap).1.map (fun s => (s.record.Month, s.record.Year)) =
      (List.range (min (spanOf ctx m y) 24)).map (monthStepN m y) := by
  have hlen := walk_length ctx e h3 h4 24 m y rmap h1 h2
  refine ⟨hlen, by omega, ?_⟩
  rw [walk_months ctx e 24 m y rmap hwk, hlen]

/-- Witness for C8: a 48-month span is cut to 24 processed months. -/
theorem walk_iteration_cap_witness :
    (walk ⟨[], [], [], 12, 2023⟩ "A" 1 2020 24 []).1.length = 24 := by
  have h := walk_iteration_cap ⟨[], [], [], 12, 2023⟩ "A" 1 2020 []
    wellKeyed_nil (by norm_num) (by norm_num) (by norm_num) (by norm_num)
  rw [h.1]
  norm_num [spanOf]

/-! ## Claim theorem: missing category definition (C9) -/

theorem buildExpenseDataMap_none (rows : List ExpenseDataRow) (c : String)
    (h : ∀ row ∈ rows, row.ExpenseType ≠ c) :
    mapGet (buildExpenseDataMap rows) c = none := by
  suffices haux : ∀ (l : List ExpenseDataRow) (acc : List (String × CategoryInfo)),
      (∀ row ∈ l, row.ExpenseType ≠ c) → mapGet acc c = none →
      mapGet (l.foldl (fun m row =>
        mapSet m row.ExpenseType ⟨row.Budget.getD 0, row.Init.getD 0⟩) acc)
        c = none by
    exact haux rows [] h rfl
  intro l
  induction l with
  | nil => intro acc _ hacc; exact hacc
  | cons row rest ih =>
    intro acc hl hacc
    rw [List.foldl_cons]
    refine ih _ (fun r hr => hl r (List.mem_cons_of_mem _ hr)) ?_
    rw [mapGet_mapSet_ne _ _ _ _ (hl row (List.mem_cons_self ..))]
    exact hacc

/-- Every record a walk queues carries the walked category. -/
theorem walk_expense (ctx : ResetContext) (e : String) :
    ∀ (fuel : ℕ) (m y : ℤ) (rmap : RolloverMap), WellKeyed rmap →
      ∀ s ∈ (walk ctx e m y fuel rmap).1, s.record.Expense = e := by
  intro fuel
  induction fuel with
  | zero => intro m y rmap _ s hs; simp [walk_zero] at hs
  | succ fuel ih =>
    intro m y rmap hwk s hs
    by_cases hc : y < ctx.todaysYear ∨
        (y = ctx.todaysYear ∧ m ≤ ctx.todaysMonth)
    · rw [walk_succ_pos ctx e m y fuel rmap hc] at hs
      rcases List.mem_cons.mp hs with hs | hs
      · rw [hs, walkStep_eq ctx e m y rmap hwk]
        rfl
      · exact ih _ _ _ (wellKeyed_walkStep hwk) s hs
    · rw [walk_succ_neg ctx e m y fuel rmap hc] at hs
      simp at hs

/-- A single-category run whose start does not lie in the future is the
plain 24-fuel walk, and is not aborted. -/
theorem resetRollover_single (env : Env) (sM sY : ℤ) (c : String)
    (hg : ¬(sY > env.todaysYear ∨
      (sY = env.todaysYear ∧ sM > env.todaysMonth))) :
    (resetRollover env sM sY (some c)).aborted = false ∧
    (resetRollover env sM sY (some c)).outs =
      (walk (mkContext env) c sM sY 24 (buildRolloverMap env.rollovers)).1 := by
  have hproc : processExpenses (mkContext env) sM sY [c]
      (buildRolloverMap env.rollovers) =
      ((walk (mkContext env) c sM sY 24 (buildRolloverMap env.rollovers)).1,
        (walk (mkContext env) c sM sY 24 (buildRolloverMap env.rollovers)).2,
        false) := by
    unfold processExpenses
    rw [show (mkContext env).todaysYear = env.todaysYear from rfl,
      show (mkContext env).todaysMonth = env.todaysMonth from rfl, if_neg hg]
    simp [processExpenses]
  unfold resetRollover
  simp only [expensesOf_some, hproc]
  simp

/-- **C9.** A category with no row in the `ExpenseData` table does not make
`resetRollover` fail: its default budget and initial balance both resolve to
`0`, the walk completes (processing `min(span, 24)` months), and every
queued record is computed with those zero fallbacks. -/
theorem missing_category_zero_fallbacks (env : Env) (sM sY : ℤ) (c : String)
    (hrow : ∀ row ∈ env.expenseData, row.ExpenseType ≠ c)
    (h1 : 1 ≤ sM) (h2 : sM ≤ 12)
    (h3 : 1 ≤ env.todaysMonth) (h4 : env.todaysMonth ≤ 12)
    (hg : ¬(sY > env.todaysYear ∨
      (sY = env.todaysYear ∧ sM > env.todaysMonth))) :
    (resetRollover env sM sY (some c)).aborted = false ∧
    getInitialAmountInMemory (mkContext env) c = 0 ∧
    (∀ m y : ℤ,
      (selectBudgetHistoryEntry env.budgetHistory c (m : ℚ) (y : ℚ)).1 = none →
      getBudgetInMemory (mkContext env) c m y = 0) ∧
    (resetRollover env sM sY (some c)).outs.length =
      min (spanOf (mkContext env) sM sY) 24 ∧
    (∀ s ∈ (resetRollover env sM sY (some c)).outs,
      s.record.Expense = c ∧
      s.record.EOM = s.record.BOM +
        getBudgetInMemory (mkContext env) c s.record.Month s.record.Year +
        periodSpend env.transactions s.record.Month s.record.Year c) := by
  have hedm : mapGet (mkContext env).expenseDataMap c = none :=
    buildExpenseDataMap_none env.expenseData c hrow
  obtain ⟨hab, houts⟩ := resetRollover_single env sM sY c hg
  refine ⟨hab, ?_, ?_, ?_, ?_⟩
  · unfold getInitialAmountInMemory
    rw [hedm]
    rfl
  · intro m y hsel
    unfold getBudgetInMemory
    rw [show (mkContext env).budgetHistory = env.budgetHistory from rfl,
      hsel, hedm]
    rfl
  · rw [houts]
    exact walk_length (mkContext env) c h3 h4 24 sM sY _ h1 h2
  · intro s hs
    rw [houts] at hs
    have hexp := walk_expense (mkContext env) c 24 sM sY _
      (wellKeyed_buildRolloverMap env.rollovers) s hs
    have hbal := walk_balanced (mkContext env) c 24 sM sY _
      (wellKeyed_buildRolloverMap env.rollovers) s hs
    refine ⟨hexp, ?_⟩
    have hspend : spendOf (mkContext env) c s.record.Month s.record.Year =
        periodSpend env.transactions s.record.Month s.record.Year c :=
      buildTransactionMap_total env.transactions _
    rw [BalancedRecord, hexp] at hbal
    rw [hbal, hspend]

/-- Witness for C9: a category absent from `ExpenseData`. -/
theorem missing_category_zero_fallbacks_witness :
    (resetRollover ⟨["X"], [], [], [], [], 6, 2023⟩ 6 2023 (some "X")).aborted
        = false ∧
      getInitialAmountInMemory (mkContext ⟨["X"], [], [], [], [], 6, 2023⟩)
        "X" = 0 ∧
      (resetRollover ⟨["X"], [], [], [], [], 6, 2023⟩ 6 2023
        (some "X")).outs.length = 1 := by
  have h := missing_category_zero_fallbacks ⟨["X"], [], [], [], [], 6, 2023⟩
    6 2023 "X" (by simp) (by norm_num) (by norm_num) (by norm_num)
    (by norm_num) (by norm_num)
  refine ⟨h.1, h.2.1, ?_⟩
  rw [h.2.2.2.1]
  norm_num [spanOf, mkContext]

/-! ## Claim C4: the future-date guard

The source performs the Phase-1 bulk fetch *before* the per-category loop
containing the future-date guard, and the guard does `console.error` and
`return` — the promise resolves normally.  The claim's "zero storage reads"
and "signals a future-date error to the caller" do not hold; the zero-writes
part does. -/

/-- Counterexample to C4 as stated: a future-dated single-category call
still performs the bulk storage read (its trace is not empty — it contains
`readBulk`). -/
theorem reset_future_reads_counterexample :
    (resetRollover ⟨["A"], [], [], [], [], 1, 2023⟩ 2 2023 (some "A")).trace ≠
        [] ∧
      IOEvent.readBulk ∈
        (resetRollover ⟨["A"], [], [], [], [], 1, 2023⟩ 2 2023
          (some "A")).trace := by
  constructor
  · simp [resetRollover, processExpenses, mkContext]
  · simp [resetRollover, processExpenses, mkContext]

/-- **C4 (amended).** A future-dated `resetRollover(m, y, category)` call
performs the bulk read, then the guard fires: it performs zero storage
writes, leaves all persisted state unchanged (no updates, no inserts, no
timestamp write), and logs a future-date error while completing normally —
no error is signaled to the caller. -/
theorem reset_future_guard_amended (env : Env) (sM sY : ℤ) (c : String)
    (hg : sY > env.todaysYear ∨ (sY = env.todaysYear ∧ sM > env.todaysMonth)) :
    resetRollover env sM sY (some c) =
      ⟨[IOEvent.readBulk], true, [], [], []⟩ := by
  have hproc : processExpenses (mkContext env) sM sY [c]
      (buildRolloverMap env.rollovers) =
      ([], buildRolloverMap env.rollovers, true) := by
    unfold processExpenses
    rw [show (mkContext env).todaysYear = env.todaysYear from rfl,
      show (mkContext env).todaysMonth = env.todaysMonth from rfl, if_pos hg]
  unfold resetRollover
  simp only [expensesOf_some, hproc]
  rfl

/-- Witness for the amended C4. -/
theorem reset_future_guard_amended_witness :
    resetRollover ⟨["A"], [], [], [], [], 1, 2023⟩ 2 2023 (some "A") =
      ⟨[IOEvent.readBulk], true, [], [], []⟩ :=
  reset_future_guard_amended ⟨["A"], [], [], [], [], 1, 2023⟩ 2 2023 "A"
    (by norm_num)

/-- The spec's Scenario A as a concrete environment. -/
def envFixture : Env :=
  { expenseList := ["Expense1"]
    rollovers := [⟨12, 2022, "Expense1", 0, 0, 50⟩]
    transactions := [⟨1, 2023, "Expense1", "Expense1", 50⟩]
    expenseData := [⟨"Expense1", some 100, some 0⟩]
    budgetHistory := []
    todaysMonth := 1
    todaysYear := 2023 }

theorem envFixture_inserts :
    (resetRollover envFixture 1 2023 (some "Expense1")).inserts =
      [⟨1, 2023, "Expense1", 50, 50, 200⟩] := by
  norm_num [resetRollover, envFixture, mkContext, processExpenses, walk,
    walkStep, buildRolloverMap, buildRolloverMapAux, buildTransactionMap,
    buildExpenseDataMap, mapGet, mapSet, getBudgetInMemory,
    getInitialAmountInMemory, selectBudgetHistoryEntry,
    getBudgetHistoryMatches, toMonthIndex, sortByStartDesc, insertByStartDesc,
    parseBudgetAmount, prevMonthYear, nextMonthYear, rolloverKey]

/-- Witness for C1: the record inserted for January 2023 in Scenario A
satisfies the balance equation. -/
theorem rollover_balance_equation_witness :
    (⟨1, 2023, "Expense1", 50, 50, 200⟩ : RolloverEntry) ∈
        (resetRollover envFixture 1 2023 (some "Expense1")).inserts ∧
      (200 : ℚ) = 50 + getBudgetInMemory (mkContext envFixture) "Expense1" 1 2023 +
        periodSpend envFixture.transactions 1 2023 "Expense1" := by
  have hmem : (⟨1, 2023, "Expense1", 50, 50, 200⟩ : RolloverEntry) ∈
      (resetRollover envFixture 1 2023 (some "Expense1")).inserts := by
    rw [envFixture_inserts]; simp
  refine ⟨hmem, ?_⟩
  simpa using
    (rollover_balance_equation envFixture 1 2023 (some "Expense1")).2 _ hmem

/-! ## Idempotence machinery (C5)

Run 1 writes its queued updates back at their recorded row indices and
appends its inserts; run 2 then rebuilds the map from the written table.
The key observations:
* `buildRolloverMap` keeps, for每 key, the *last* occurrence in the table
  (`Map.set` overwrites), characterised below through `lastOcc`;
* run 1 only touches rows whose keys lie at or after the starting month, so
  the rebuilt map agrees with the original one at each category's
  previous-of-start key — and the walk's records depend on the map only
  through that key. -/

/-- The last occurrence (position and entry) of a key in a table. -/
def lastOcc (k : RKey) : List RolloverEntry → Option (ℕ × RolloverEntry)
  | [] => none
  | r :: rest =>
    match lastOcc k rest with
    | some (j, r₂) => some (j + 1, r₂)
    | none => if rolloverKey r = k then some (0, r) else none

theorem lastOcc_getElem {k : RKey} :
    ∀ {l : List RolloverEntry} {j : ℕ} {r : RolloverEntry},
      lastOcc k l = some (j, r) → l[j]? = some r ∧ rolloverKey r = k := by
  intro l
  induction l with
  | nil => intro j r h; simp [lastOcc] at h
  | cons a t ih =>
    intro j r h
    unfold lastOcc at h
    cases ht : lastOcc k t with
    | some p =>
      obtain ⟨j₂, r₂⟩ := p
      rw [ht] at h
      injection h with h
      obtain ⟨h₁, h₂⟩ := Prod.mk.injEq .. ▸ h
      obtain ⟨hget, hkey⟩ := ih ht
      subst h₂
      simp only [← h₁, List.getElem?_cons_succ]
      exact ⟨hget, hkey⟩
    | none =>
      rw [ht] at h
      by_cases hk : rolloverKey a = k
      · rw [if_pos hk] at h
        injection h with h
        obtain ⟨h₁, h₂⟩ := Prod.mk.injEq .. ▸ h
        subst h₂
        simp [← h₁, hk]
      · rw [if_neg hk] at h
        cases h

theorem lastOcc_eq_none_iff {k : RKey} {l : List RolloverEntry} :
    lastOcc k l = none ↔ ∀ r ∈ l, rolloverKey r ≠ k := by
  induction l with
  | nil => simp [lastOcc]
  | cons a t ih =>
    cases ht : lastOcc k t with
    | some p =>
      obtain ⟨j, r₂⟩ := p
      simp only [lastOcc, ht]
      constructor
      · intro h; cases h
      · intro h
        have hnone : lastOcc k t = none :=
          ih.mpr fun r hr => h r (List.mem_cons_of_mem _ hr)
        rw [ht] at hnone; cases hnone
    | none =>
      have htail := ih.mp ht
      simp only [lastOcc, ht]
      by_cases hk : rolloverKey a = k
      · simp only [if_pos hk]
        constructor
        · intro h; cases h
        · intro h; exact absurd hk (h a (List.mem_cons_self ..))
      · simp only [if_neg hk]
        constructor
        · intro _ r hr
          rcases List.mem_cons.mp hr with hr | hr
          · exact hr ▸ hk
          · exact htail r hr
        · intro _; trivial

theorem lastOcc_isSome_iff {k : RKey} {l : List RolloverEntry} :
    (lastOcc k l).isSome ↔ ∃ r ∈ l, rolloverKey r = k := by
  rw [← Option.ne_none_iff_isSome]
  constructor
  · intro h
    by_contra hno
    push_neg at hno
    exact h (lastOcc_eq_none_iff.mpr hno)
  · rintro ⟨r, hr, hk⟩ hnone
    exact (lastOcc_eq_none_iff.mp hnone r hr) hk

theorem buildRolloverMapAux_get :
    ∀ (l : List RolloverEntry) (i : ℕ) (acc : RolloverMap) (k : RKey),
      mapGet (buildRolloverMapAux i l acc) k =
        match lastOcc k l with
        | some (j, r) => some ⟨r, ((i + j : ℕ) : ℤ)⟩
        | none => mapGet acc k := by
  intro l
  induction l with
  | nil => intro i acc k; rfl
  | cons r rest ih =>
    intro i acc k
    show mapGet (buildRolloverMapAux (i + 1) rest
      (mapSet acc (rolloverKey r) ⟨r, (i : ℤ)⟩)) k = _
    rw [ih]
    cases ht : lastOcc k rest with
    | some p =>
      obtain ⟨j, r₂⟩ := p
      simp only [lastOcc, ht]
      congr 2
      omega
    | none =>
      simp only [lastOcc, ht, mapGet_mapSet]
      by_cases hk : rolloverKey r = k
      · simp only [if_pos hk]
        simp
      · simp only [if_neg hk]

theorem buildRolloverMap_get (l : List RolloverEntry) (k : RKey) :
    mapGet (buildRolloverMap l) k =
      match lastOcc k l with
      | some (j, r) => some ⟨r, (j : ℤ)⟩
      | none => none := by
  unfold buildRolloverMap
  rw [buildRolloverMapAux_get]
  cases lastOcc k l with
  | none => rfl
  | some p => obtain ⟨j, r⟩ := p; simp

/-- `lastOcc` only depends on the positions that hold `k`-keyed entries. -/
theorem lastOcc_eq_of_agree (k : RKey) :
    ∀ (l₁ l₂ : List RolloverEntry), l₁.length = l₂.length →
      (∀ (p : ℕ) (r : RolloverEntry),
        (l₁[p]? = some r ∧ rolloverKey r = k) ↔
          (l₂[p]? = some r ∧ rolloverKey r = k)) →
      lastOcc k l₁ = lastOcc k l₂ := by
  intro l₁
  induction l₁ with
  | nil =>
    intro l₂ hlen _
    cases l₂ with
    | nil => rfl
    | cons b t₂ => simp at hlen
  | cons a t₁ ih =>
    intro l₂ hlen hag
    cases l₂ with
    | nil => simp at hlen
    | cons b t₂ =>
      have htail : lastOcc k t₁ = lastOcc k t₂ := by
        refine ih t₂ (by simpa using hlen) ?_
        intro p r
        have := hag (p + 1) r
        simpa using this
      unfold lastOcc
      rw [htail]
      cases lastOcc k t₂ with
      | some p => rfl
      | none =>
        simp only []
        by_cases hk : rolloverKey a = k
        · have hb : b = a ∧ rolloverKey b = k := by
            have h := (hag 0 a).mp ⟨by simp, hk⟩
            have hba : b = a := by
              have := h.1
              simp only [List.getElem?_cons_zero, Option.some.injEq] at this
              exact this
            exact ⟨hba, hba ▸ h.2⟩
          rw [if_pos hk, if_pos hb.2, hb.1]
        · have hbk : rolloverKey b ≠ k := by
            intro hbk
            have h := (hag 0 b).mpr ⟨by simp, hbk⟩
            have : a = b := by
              have := h.1
              simp only [List.getElem?_cons_zero, Option.some.injEq] at this
              exact this
            exact hk (this ▸ hbk)
          rw [if_neg hk, if_neg hbk]

/-- Setting a non-`k` position to a non-`k` entry leaves `lastOcc k`
unchanged. -/
theorem lastOcc_set_ne (l : List RolloverEntry) (i : ℕ) (e : RolloverEntry)
    (k : RKey) (hi : ∀ r, l[i]? = some r → rolloverKey r ≠ k)
    (he : rolloverKey e ≠ k) :
    lastOcc k (l.set i e) = lastOcc k l := by
  refine lastOcc_eq_of_agree k _ _ (by simp) ?_
  intro p r
  rw [List.getElem?_set]
  by_cases hip : i = p
  · subst hip
    by_cases hlt : i < l.length
    · rw [if_pos rfl, if_pos hlt]
      constructor
      · rintro ⟨h₁, h₂⟩
        injection h₁ with h₁
        exact absurd (h₁ ▸ h₂) he
      · rintro ⟨h₁, h₂⟩
        exact absurd h₂ (hi r h₁)
    · rw [if_pos rfl, if_neg hlt]
      constructor
      · rintro ⟨h₁, -⟩; cases h₁
      · rintro ⟨h₁, -⟩
        rw [List.getElem?_eq_none (by omega)] at h₁
        cases h₁
  · rw [if_neg hip]

theorem applyUpdates_cons (l : List RolloverEntry) (u : ℤ × RolloverEntry)
    (ups : List (ℤ × RolloverEntry)) :
    applyUpdates l (u :: ups) =
      applyUpdates (if 0 ≤ u.1 then l.set u.1.toNat u.2 else l) ups := rfl

theorem length_applyUpdates :
    ∀ (ups : List (ℤ × RolloverEntry)) (l : List RolloverEntry),
      (applyUpdates l ups).length = l.length := by
  intro ups
  induction ups with
  | nil => intro l; rfl
  | cons u ups ih =>
    intro l
    rw [applyUpdates_cons]
    by_cases hpos : 0 ≤ u.1
    · rw [if_pos hpos, ih, List.length_set]
    · rw [if_neg hpos, ih]

/-- Updates that target only non-`k` rows with non-`k` records leave the
last occurrence of `k` untouched. -/
theorem lastOcc_applyUpdates (k : RKey) :
    ∀ (ups : List (ℤ × RolloverEntry)) (l : List RolloverEntry),
      (∀ u ∈ ups, rolloverKey u.2 ≠ k ∧
        ∀ r, l[u.1.toNat]? = some r → rolloverKey r ≠ k) →
      lastOcc k (applyUpdates l ups) = lastOcc k l := by
  intro ups
  induction ups with
  | nil => intro l _; rfl
  | cons u ups ih =>
    intro l h
    have hu := h u (List.mem_cons_self ..)
    rw [applyUpdates_cons]
    by_cases hpos : 0 ≤ u.1
    · rw [if_pos hpos]
      rw [ih (l.set u.1.toNat u.2) ?_]
      · exact lastOcc_set_ne l _ _ k hu.2 hu.1
      · intro u₂ hu₂
        have hu₂full := h u₂ (List.mem_cons_of_mem _ hu₂)
        refine ⟨hu₂full.1, ?_⟩
        intro r hr
        rw [List.getElem?_set] at hr
        by_cases hq : u.1.toNat = u₂.1.toNat
        · rw [if_pos hq] at hr
          by_cases hlt : u.1.toNat < l.length
          · rw [if_pos hlt] at hr
            injection hr with hr
            exact hr ▸ hu.1
          · rw [if_neg hlt] at hr; cases hr
        · rw [if_neg hq] at hr
          exact hu₂full.2 r hr
    · rw [if_neg hpos]
      exact ih l fun u₂ hu₂ => h u₂ (List.mem_cons_of_mem _ hu₂)

theorem lastOcc_append (k : RKey) :
    ∀ (l₁ l₂ : List RolloverEntry),
      lastOcc k (l₁ ++ l₂) =
        match lastOcc k l₂ with
        | some (j, r) => some (l₁.length + j, r)
        | none => lastOcc k l₁ := by
  intro l₁
  induction l₁ with
  | nil =>
    intro l₂
    cases h : lastOcc k l₂ with
    | none => simp [h, lastOcc]
    | some p => obtain ⟨j, r⟩ := p; simp [h]
  | cons a t ih =>
    intro l₂
    show lastOcc k (a :: (t ++ l₂)) = _
    cases h : lastOcc k l₂ with
    | some p =>
      obtain ⟨j, r⟩ := p
      have hin : lastOcc k (t ++ l₂) = some (t.length + j, r) := by
        rw [ih l₂, h]
      simp only [lastOcc, hin, h, List.length_cons]
      congr 2
      omega
    | none =>
      have hin : lastOcc k (t ++ l₂) = lastOcc k t := by
        rw [ih l₂, h]
      simp only [lastOcc, hin, h]

/-- Combined: the rebuilt map after run 1's writes agrees with the original
map at every key no update or insert carries. -/
theorem buildRolloverMap_written_agree (orig : List RolloverEntry)
    (ups : List (ℤ × RolloverEntry)) (ins : List RolloverEntry) (k : RKey)
    (hups : ∀ u ∈ ups, rolloverKey u.2 ≠ k ∧
      ∀ r, orig[u.1.toNat]? = some r → rolloverKey r ≠ k)
    (hins : ∀ r ∈ ins, rolloverKey r ≠ k) :
    mapGet (buildRolloverMap (applyUpdates orig ups ++ ins)) k =
      mapGet (buildRolloverMap orig) k := by
  rw [buildRolloverMap_get, buildRolloverMap_get, lastOcc_append,
    lastOcc_eq_none_iff.mpr hins, lastOcc_applyUpdates k ups orig hups]

/-- Updating through indices whose original row has the same key as the
queued record preserves, at every position, the key of the row stored
there. -/
theorem applyUpdates_key_at :
    ∀ (ups : List (ℤ × RolloverEntry)) (l : List RolloverEntry),
      (∀ u ∈ ups, ∀ r, l[u.1.toNat]? = some r →
        rolloverKey u.2 = rolloverKey r) →
      ∀ (p : ℕ) (r : RolloverEntry), l[p]? = some r →
        ∃ r₂, (applyUpdates l ups)[p]? = some r₂ ∧
          rolloverKey r₂ = rolloverKey r := by
  intro ups
  induction ups with
  | nil => intro l _ p r hp; exact ⟨r, hp, rfl⟩
  | cons u ups ih =>
    intro l h p r hp
    have hu := h u (List.mem_cons_self ..)
    rw [applyUpdates_cons]
    by_cases hpos : 0 ≤ u.1
    · rw [if_pos hpos]
      have hkey : ∀ u₂ ∈ ups, ∀ r₂,
          (l.set u.1.toNat u.2)[u₂.1.toNat]? = some r₂ →
          rolloverKey u₂.2 = rolloverKey r₂ := by
        intro u₂ hu₂ r₂ hr₂
        have hu₂full := h u₂ (List.mem_cons_of_mem _ hu₂)
        rw [List.getElem?_set] at hr₂
        by_cases hq : u.1.toNat = u₂.1.toNat
        · rw [if_pos hq] at hr₂
          by_cases hlt : u.1.toNat < l.length
          · rw [if_pos hlt] at hr₂
            injection hr₂ with hr₂
            obtain ⟨r₃, hr₃⟩ := Option.isSome_iff_exists.mp
              (by rw [List.getElem?_eq_getElem (by omega : u₂.1.toNat < l.length)]; simp :
                (l[u₂.1.toNat]?).isSome)
            have h₁ := hu₂full r₃ hr₃
            have h₂ := hu r₃ (hq ▸ hr₃)
            rw [h₁, ← h₂, hr₂]
          · rw [if_neg hlt] at hr₂; cases hr₂
        · rw [if_neg hq] at hr₂
          exact hu₂full r₂ hr₂
      by_cases hpq : u.1.toNat = p
      · subst hpq
        have hlt : u.1.toNat < l.length := by
          by_contra hge
          rw [List.getElem?_eq_none (by omega)] at hp
          cases hp
        obtain ⟨r₂, hr₂, hk₂⟩ := ih (l.set u.1.toNat u.2) hkey u.1.toNat u.2
          (by rw [List.getElem?_set_self hlt])
        exact ⟨r₂, hr₂, by rw [hk₂, hu r hp]⟩
      · obtain ⟨r₂, hr₂, hk₂⟩ := ih (l.set u.1.toNat u.2) hkey p r
          (by rw [List.getElem?_set_ne hpq]; exact hp)
        exact ⟨r₂, hr₂, hk₂⟩
    · rw [if_neg hpos]
      exact ih l (fun u₂ hu₂ => h u₂ (List.mem_cons_of_mem _ hu₂)) p r hp

/-- If a key occurs in the original table, it still occurs in the written
table. -/
theorem key_mem_written (orig : List RolloverEntry)
    (ups : List (ℤ × RolloverEntry)) (ins : List RolloverEntry) (k : RKey)
    (h : ∀ u ∈ ups, ∀ r, orig[u.1.toNat]? = some r →
      rolloverKey u.2 = rolloverKey r)
    (hk : ∃ r ∈ orig, rolloverKey r = k) :
    ∃ r₂ ∈ applyUpdates orig ups ++ ins, rolloverKey r₂ = k := by
  obtain ⟨r, hr, hrk⟩ := hk
  obtain ⟨p, hp⟩ := List.getElem?_of_mem hr
  obtain ⟨r₂, hr₂, hk₂⟩ := applyUpdates_key_at ups orig h p r hp
  exact ⟨r₂, List.mem_append_left _ (List.getElem?_mem hr₂), hk₂ ▸ hrk⟩

/-! ### Month schedule arithmetic -/

theorem monthStepN_index (m y : ℤ) :
    ∀ n : ℕ, (monthStepN m y n).2 * 12 + (monthStepN m y n).1 =
      y * 12 + m + (n : ℤ) := by
  intro n
  induction n generalizing m y with
  | zero => simp [monthStepN]
  | succ n ih =>
    show (monthStepN (nextMonthYear m y).1 (nextMonthYear m y).2 n).2 * 12 +
      (monthStepN (nextMonthYear m y).1 (nextMonthYear m y).2 n).1 = _
    rw [ih]
    have := nextMonthYear_index m y
    push_cast
    omega

theorem monthStepN_bounds {m y : ℤ} (h1 : 1 ≤ m) (h2 : m ≤ 12) :
    ∀ n : ℕ, 1 ≤ (monthStepN m y n).1 ∧ (monthStepN m y n).1 ≤ 12 := by
  intro n
  induction n generalizing m y with
  | zero => exact ⟨h1, h2⟩
  | succ n ih =>
    exact ih (nextMonthYear_bounds h1 h2).1 (nextMonthYear_bounds h1 h2).2

theorem prevMonthYear_index (m y : ℤ) :
    (prevMonthYear m y).2 * 12 + (prevMonthYear m y).1 = y * 12 + m - 1 := by
  unfold prevMonthYear
  by_cases h : m - 1 = 0
  · rw [if_pos h]; simp; omega
  · rw [if_neg h]; simp; ring

/-! ### What a walk touches and reads -/

theorem walkStep_snd_mapSet (ctx : ResetContext) (e : String) (m y : ℤ)
    (rmap : RolloverMap) :
    ∃ v, (walkStep ctx e m y rmap).2 = mapSet rmap ⟨m, y, e⟩ v := by
  cases h : mapGet rmap ⟨m, y, e⟩ with
  | none =>
    refine ⟨⟨stepRecordOf ctx e m y rmap, -1⟩, ?_⟩
    simp only [walkStep, h]
    rfl
  | some cur =>
    refine ⟨⟨{ cur.entry with
        Expenses := spendOf ctx e m y
        BOM := prevEOMOf ctx e m y rmap
        EOM := prevEOMOf ctx e m y rmap + getBudgetInMemory ctx e m y +
          spendOf ctx e m y }, cur.index⟩, ?_⟩
    simp only [walkStep, h]
    rfl

/-- Keys of a different expense, or strictly before the walk's current
month, are never touched by the walk. -/
theorem walk_mapGet_untouched (ctx : ResetContext) (e : String) :
    ∀ (fuel : ℕ) (m y : ℤ) (rmap : RolloverMap) (k : RKey),
      (k.expense ≠ e ∨ k.year * 12 + k.month < y * 12 + m) →
      mapGet (walk ctx e m y fuel rmap).2 k = mapGet rmap k := by
  intro fuel
  induction fuel with
  | zero => intro m y rmap k _; rfl
  | succ fuel ih =>
    intro m y rmap k hk
    by_cases hc : y < ctx.todaysYear ∨
        (y = ctx.todaysYear ∧ m ≤ ctx.todaysMonth)
    · rw [walk_succ_pos ctx e m y fuel rmap hc]
      have hnidx := nextMonthYear_index m y
      have h₁ : mapGet (walk ctx e (nextMonthYear m y).1 (nextMonthYear m y).2
          fuel (walkStep ctx e m y rmap).2).2 k =
          mapGet (walkStep ctx e m y rmap).2 k := by
        refine ih _ _ _ k ?_
        rcases hk with hk | hk
        · exact Or.inl hk
        · exact Or.inr (by omega)
      rw [h₁]
      obtain ⟨v, hv⟩ := walkStep_snd_mapSet ctx e m y rmap
      rw [hv, mapGet_mapSet_ne]
      intro hkey
      rcases hk with hk | hk
      · exact hk (congrArg RKey.expense hkey.symm)
      · have h₂ : k.month = m ∧ k.year = y :=
          ⟨congrArg RKey.month hkey.symm, congrArg RKey.year hkey.symm⟩
        omega
    · rw [walk_succ_neg ctx e m y fuel rmap hc]

/-- Every record a walk queues sits at or after the walk's starting month
and carries the walked category. -/
theorem walk_record_bound (ctx : ResetContext) (e : String) :
    ∀ (fuel : ℕ) (m y : ℤ) (rmap : RolloverMap), WellKeyed rmap →
      ∀ s ∈ (walk ctx e m y fuel rmap).1,
        y * 12 + m ≤ s.record.Year * 12 + s.record.Month ∧
          s.record.Expense = e := by
  intro fuel
  induction fuel with
  | zero => intro m y rmap _ s hs; simp [walk_zero] at hs
  | succ fuel ih =>
    intro m y rmap hwk s hs
    by_cases hc : y < ctx.todaysYear ∨
        (y = ctx.todaysYear ∧ m ≤ ctx.todaysMonth)
    · rw [walk_succ_pos ctx e m y fuel rmap hc] at hs
      rcases List.mem_cons.mp hs with hs | hs
      · rw [hs, walkStep_eq ctx e m y rmap hwk]
        exact ⟨le_refl _, rfl⟩
      · have := ih _ _ _ (wellKeyed_walkStep hwk) s hs
        have hnidx := nextMonthYear_index m y
        exact ⟨by omega, this.2⟩
    · rw [walk_succ_neg ctx e m y fuel rmap hc] at hs
      simp at hs

/-- On a map that still agrees with the originally built map at every key of
this category at or after the current month, every queued update carries the
row index of the last original occurrence of its own key. -/
theorem walk_updates_sound (ctx : ResetContext) (e : String)
    (orig : List RolloverEntry) :
    ∀ (fuel : ℕ) (m y : ℤ) (rmap : RolloverMap), WellKeyed rmap →
      (∀ k : RKey, k.expense = e → y * 12 + m ≤ k.year * 12 + k.month →
        mapGet rmap k = mapGet (buildRolloverMap orig) k) →
      ∀ s ∈ (walk ctx e m y fuel rmap).1, s.isUpdate = true →
        0 ≤ s.rowIndex ∧ ∃ r, orig[s.rowIndex.toNat]? = some r ∧
          rolloverKey r = rolloverKey s.record := by
  intro fuel
  induction fuel with
  | zero => intro m y rmap _ _ s hs; simp [walk_zero] at hs
  | succ fuel ih =>
    intro m y rmap hwk hfresh s hs hupd
    by_cases hc : y < ctx.todaysYear ∨
        (y = ctx.todaysYear ∧ m ≤ ctx.todaysMonth)
    · rw [walk_succ_pos ctx e m y fuel rmap hc] at hs
      rcases List.mem_cons.mp hs with hs | hs
      · subst hs
        rw [walkStep_eq ctx e m y rmap hwk] at hupd ⊢
        have hcur : mapGet rmap ⟨m, y, e⟩ =
            mapGet (buildRolloverMap orig) ⟨m, y, e⟩ :=
          hfresh ⟨m, y, e⟩ rfl (le_refl _)
        simp only at hupd
        rw [hcur, buildRolloverMap_get] at hupd
        cases hlast : lastOcc (⟨m, y, e⟩ : RKey) orig with
        | none => rw [hlast] at hupd; simp at hupd
        | some p =>
          obtain ⟨j, r⟩ := p
          obtain ⟨hget, hkey⟩ := lastOcc_getElem hlast
          have hslot : mapGet rmap ⟨m, y, e⟩ = some ⟨r, (j : ℤ)⟩ := by
            rw [hcur, buildRolloverMap_get, hlast]
          refine ⟨?_, r, ?_, ?_⟩
          · show (0 : ℤ) ≤ stepIndexOf e m y rmap
            unfold stepIndexOf
            rw [hslot]
            exact Int.ofNat_nonneg j
          · show orig[(stepIndexOf e m y rmap).toNat]? = some r
            unfold stepIndexOf
            rw [hslot]
            simpa using hget
          · exact hkey
      · refine ih _ _ _ (wellKeyed_walkStep hwk) ?_ s hs hupd
        intro k hke hkidx
        have hnidx := nextMonthYear_index m y
        obtain ⟨v, hv⟩ := walkStep_snd_mapSet ctx e m y rmap
        rw [hv, mapGet_mapSet_ne]
        · exact hfresh k hke (by omega)
        · intro hkey
          have h₂ : k.month = m ∧ k.year = y :=
            ⟨congrArg RKey.month hkey.symm, congrArg RKey.year hkey.symm⟩
          omega
    · rw [walk_succ_neg ctx e m y fuel rmap hc] at hs
      simp at hs

/-- The records a walk computes depend on the starting map only through the
previous-of-start lookup. -/
theorem walk_records_congr (ctx : ResetContext) (e : String) :
    ∀ (fuel : ℕ) (m y : ℤ) (rmapA rmapB : RolloverMap),
      WellKeyed rmapA → WellKeyed rmapB → 1 ≤ m → m ≤ 12 →
      prevEOMOf ctx e m y rmapA = prevEOMOf ctx e m y rmapB →
      (walk ctx e m y fuel rmapB).1.map (·.record) =
        (walk ctx e m y fuel rmapA).1.map (·.record) := by
  intro fuel
  induction fuel with
  | zero => intro m y rmapA rmapB _ _ _ _ _; simp [walk_zero]
  | succ fuel ih =>
    intro m y rmapA rmapB hwkA hwkB h1 h2 hprev
    by_cases hc : y < ctx.todaysYear ∨
        (y = ctx.todaysYear ∧ m ≤ ctx.todaysMonth)
    · rw [walk_succ_pos ctx e m y fuel rmapA hc,
        walk_succ_pos ctx e m y fuel rmapB hc]
      simp only [List.map_cons]
      have hrec : stepRecordOf ctx e m y rmapB = stepRecordOf ctx e m y rmapA := by
        unfold stepRecordOf
        rw [hprev]
      refine congrArg₂ List.cons ?_ ?_
      · rw [walkStep_eq ctx e m y rmapA hwkA, walkStep_eq ctx e m y rmapB hwkB]
        exact hrec
      · refine ih _ _ _ _ (wellKeyed_walkStep hwkA) (wellKeyed_walkStep hwkB)
          (nextMonthYear_bounds h1 h2).1 (nextMonthYear_bounds h1 h2).2 ?_
        unfold prevEOMOf
        rw [prevMonthYear_nextMonthYear h1 h2]
        rw [walkStep_eq ctx e m y rmapA hwkA, walkStep_eq ctx e m y rmapB hwkB]
        simp only [mapGet_mapSet_self]
        rw [hrec]
    · rw [walk_succ_neg ctx e m y fuel rmapA hc,
        walk_succ_neg ctx e m y fuel rmapB hc]

/-- When every month the walk can reach is already present in the map,
every queued step is an update. -/
theorem walk_all_updates (ctx : ResetContext) (e : String) :
    ∀ (fuel : ℕ) (m y : ℤ) (rmap : RolloverMap), WellKeyed rmap →
      (∀ n : ℕ, n < fuel →
        ((monthStepN m y n).2 < ctx.todaysYear ∨
          ((monthStepN m y n).2 = ctx.todaysYear ∧
            (monthStepN m y n).1 ≤ ctx.todaysMonth)) →
        (mapGet rmap
          ⟨(monthStepN m y n).1, (monthStepN m y n).2, e⟩).isSome) →
      ∀ s ∈ (walk ctx e m y fuel rmap).1, s.isUpdate = true := by
  intro fuel
  induction fuel with
  | zero => intro m y rmap _ _ s hs; simp [walk_zero] at hs
  | succ fuel ih =>
    intro m y rmap hwk hpres s hs
    by_cases hc : y < ctx.todaysYear ∨
        (y = ctx.todaysYear ∧ m ≤ ctx.todaysMonth)
    · rw [walk_succ_pos ctx e m y fuel rmap hc] at hs
      rcases List.mem_cons.mp hs with hs | hs
      · rw [hs, walkStep_eq ctx e m y rmap hwk]
        show (mapGet rmap ⟨m, y, e⟩).isSome = true
        exact hpres 0 (by omega) (by simpa [monthStepN] using hc)
      · refine ih _ _ _ (wellKeyed_walkStep hwk) ?_ s hs
        intro n hn hcn
        obtain ⟨v, hv⟩ := walkStep_snd_mapSet ctx e m y rmap
        rw [hv, mapGet_mapSet]
        by_cases hkey : (⟨m, y, e⟩ : RKey) =
            ⟨(monthStepN (nextMonthYear m y).1 (nextMonthYear m y).2 n).1,
              (monthStepN (nextMonthYear m y).1 (nextMonthYear m y).2 n).2, e⟩
        · rw [if_pos hkey]; rfl
        · rw [if_neg hkey]
          exact hpres (n + 1) (by omega) hcn
    · rw [walk_succ_neg ctx e m y fuel rmap hc] at hs
      simp at hs

/-! ### Lifting to the per-category loop -/

theorem processExpenses_nil_eq (ctx : ResetContext) (sM sY : ℤ)
    (rmap : RolloverMap) :
    processExpenses ctx sM sY [] rmap = ([], rmap, false) := rfl

theorem processExpenses_cons_eq (ctx : ResetContext) (sM sY : ℤ) (e : String)
    (rest : List String) (rmap : RolloverMap)
    (hg : ¬(sY > ctx.todaysYear ∨
      (sY = ctx.todaysYear ∧ sM > ctx.todaysMonth))) :
    processExpenses ctx sM sY (e :: rest) rmap =
      ((walk ctx e sM sY 24 rmap).1 ++
          (processExpenses ctx sM sY rest (walk ctx e sM sY 24 rmap).2).1,
        (processExpenses ctx sM sY rest (walk ctx e sM sY 24 rmap).2).2.1,
        (processExpenses ctx sM sY rest (walk ctx e sM sY 24 rmap).2).2.2) := by
  conv_lhs => unfold processExpenses
  rw [if_neg hg]

theorem processExpenses_cons_abort (ctx : ResetContext) (sM sY : ℤ)
    (e : String) (rest : List String) (rmap : RolloverMap)
    (hg : sY > ctx.todaysYear ∨
      (sY = ctx.todaysYear ∧ sM > ctx.todaysMonth)) :
    processExpenses ctx sM sY (e :: rest) rmap = ([], rmap, true) := by
  conv_lhs => unfold processExpenses
  rw [if_pos hg]

theorem processExpenses_not_aborted (ctx : ResetContext) (sM sY : ℤ)
    (hg : ¬(sY > ctx.todaysYear ∨
      (sY = ctx.todaysYear ∧ sM > ctx.todaysMonth))) :
    ∀ (expenses : List String) (rmap : RolloverMap),
      (processExpenses ctx sM sY expenses rmap).2.2 = false := by
  intro expenses
  induction expenses with
  | nil => intro rmap; rfl
  | cons e rest ih =>
    intro rmap
    rw [processExpenses_cons_eq ctx sM sY e rest rmap hg]
    exact ih _

/-- Every record the loop queues starts at or after the starting month,
belongs to one of the processed categories, and — if queued as an update —
carries the position of the last original occurrence of its key. -/
theorem processExpenses_sound (ctx : ResetContext) (sM sY : ℤ)
    (orig : List RolloverEntry) :
    ∀ (expenses : List String) (rmap : RolloverMap), expenses.Nodup →
      WellKeyed rmap →
      (∀ k : RKey, k.expense ∈ expenses →
        mapGet rmap k = mapGet (buildRolloverMap orig) k) →
      ∀ s ∈ (processExpenses ctx sM sY expenses rmap).1,
        sY * 12 + sM ≤ s.record.Year * 12 + s.record.Month ∧
        s.record.Expense ∈ expenses ∧
        (s.isUpdate = true → 0 ≤ s.rowIndex ∧
          ∃ r, orig[s.rowIndex.toNat]? = some r ∧
            rolloverKey r = rolloverKey s.record) := by
  intro expenses
  induction expenses with
  | nil => intro rmap _ _ _ s hs; simp [processExpenses_nil_eq] at hs
  | cons e rest ih =>
    intro rmap hnd hwk hagree s hs
    by_cases hg : sY > ctx.todaysYear ∨
        (sY = ctx.todaysYear ∧ sM > ctx.todaysMonth)
    · rw [processExpenses_cons_abort ctx sM sY e rest rmap hg] at hs
      simp at hs
    · rw [processExpenses_cons_eq ctx sM sY e rest rmap hg] at hs
      simp only [List.mem_append] at hs
      rcases hs with hs | hs
      · obtain ⟨hbound, hexp⟩ := walk_record_bound ctx e 24 sM sY rmap hwk s hs
        refine ⟨hbound, by rw [hexp]; exact List.mem_cons_self .., ?_⟩
        exact walk_updates_sound ctx e orig 24 sM sY rmap hwk
          (fun k hke _ => hagree k (by rw [hke]; exact List.mem_cons_self ..))
          s hs
      · have hnd₂ := List.nodup_cons.mp hnd
        have := ih _ hnd₂.2 (wellKeyed_walk ctx e 24 sM sY rmap hwk) ?_ s hs
        · exact ⟨this.1, List.mem_cons_of_mem _ this.2.1, this.2.2⟩
        · intro k hke
          rw [walk_mapGet_untouched ctx e 24 sM sY rmap k
            (Or.inl fun hkeq => hnd₂.1 (hkeq ▸ hke))]
          exact hagree k (List.mem_cons_of_mem _ hke)

/-- Every month within span and cap is represented in the loop's output for
every processed category. -/
theorem processExpenses_coverage (ctx : ResetContext) (sM sY : ℤ)
    (h1 : 1 ≤ sM) (h2 : sM ≤ 12)
    (h3 : 1 ≤ ctx.todaysMonth) (h4 : ctx.todaysMonth ≤ 12) :
    ∀ (expenses : List String) (rmap : RolloverMap), WellKeyed rmap →
      ∀ c ∈ expenses, ∀ n : ℕ, n < 24 →
        ((monthStepN sM sY n).2 < ctx.todaysYear ∨
          ((monthStepN sM sY n).2 = ctx.todaysYear ∧
            (monthStepN sM sY n).1 ≤ ctx.todaysMonth)) →
        ∃ s ∈ (processExpenses ctx sM sY expenses rmap).1,
          s.record.Month = (monthStepN sM sY n).1 ∧
          s.record.Year = (monthStepN sM sY n).2 ∧ s.record.Expense = c := by
  intro expenses
  induction expenses with
  | nil => intro rmap _ c hc; simp at hc
  | cons e rest ih =>
    intro rmap hwk c hc n hn hcond
    have hidx := monthStepN_index sM sY n
    have hmb := monthStepN_bounds (y := sY) h1 h2 n
    by_cases hg : sY > ctx.todaysYear ∨
        (sY = ctx.todaysYear ∧ sM > ctx.todaysMonth)
    · exfalso
      rcases hcond with h | ⟨h, h'⟩ <;> rcases hg with hg | ⟨hg, hg'⟩ <;> omega
    · rw [processExpenses_cons_eq ctx sM sY e rest rmap hg]
      rcases List.mem_cons.mp hc with hc | hc
      · subst hc
        have hlen := walk_length ctx c h3 h4 24 sM sY rmap h1 h2
        have hspan : n < spanOf ctx sM sY := by
          simp only [spanOf]
          rcases hcond with h | ⟨h, h'⟩ <;> omega
        have hn' : n < (walk ctx c sM sY 24 rmap).1.length := by omega
        have hmons := walk_months ctx c 24 sM sY rmap hwk
        have hel : ((walk ctx c sM sY 24 rmap).1.map
            (fun s => (s.record.Month, s.record.Year)))[n]? =
            ((List.range (walk ctx c sM sY 24 rmap).1.length).map
              (monthStepN sM sY))[n]? := by rw [hmons]
        rw [List.getElem?_map, List.getElem?_map,
          List.getElem?_eq_getElem hn',
          List.getElem?_eq_getElem (by simpa using hn')] at hel
        simp only [Option.map_some', Option.some.injEq, List.getElem_range]
          at hel
        refine ⟨(walk ctx c sM sY 24 rmap).1[n], List.mem_append_left _
          (List.getElem_mem hn'), ?_, ?_, ?_⟩
        · exact congrArg Prod.fst hel
        · exact congrArg Prod.snd hel
        · exact (walk_record_bound ctx c 24 sM sY rmap hwk _
            (List.getElem_mem hn')).2
      · obtain ⟨s, hsmem, hsp⟩ := ih _ (wellKeyed_walk ctx e 24 sM sY rmap hwk)
          c hc n hn hcond
        exact ⟨s, List.mem_append_right _ hsmem, hsp⟩

theorem buildRolloverMap_isSome (l : List RolloverEntry) (k : RKey) :
    (mapGet (buildRolloverMap l) k).isSome ↔ ∃ r ∈ l, rolloverKey r = k := by
  rw [buildRolloverMap_get, ← lastOcc_isSome_iff]
  cases lastOcc k l with
  | none => simp
  | some p => obtain ⟨j, r⟩ := p; simp

/-- Re-running the loop over a map that (i) agrees with the first run's map
at each category's previous-of-start key and (ii) contains every key the
first run could process produces the same records, all queued as updates. -/
theorem processExpenses_rerun (ctx : ResetContext) (sM sY : ℤ)
    (M0A M0B : RolloverMap) (h1 : 1 ≤ sM) (h2 : sM ≤ 12)
    (hg : ¬(sY > ctx.todaysYear ∨
      (sY = ctx.todaysYear ∧ sM > ctx.todaysMonth))) :
    ∀ (expenses : List String) (rmapA rmapB : RolloverMap),
      expenses.Nodup → WellKeyed rmapA → WellKeyed rmapB →
      (∀ k : RKey, k.expense ∈ expenses → mapGet rmapA k = mapGet M0A k) →
      (∀ k : RKey, k.expense ∈ expenses → mapGet rmapB k = mapGet M0B k) →
      (∀ c ∈ expenses,
        mapGet M0B ⟨(prevMonthYear sM sY).1, (prevMonthYear sM sY).2, c⟩ =
          mapGet M0A ⟨(prevMonthYear sM sY).1, (prevMonthYear sM sY).2, c⟩) →
      (∀ c ∈ expenses, ∀ n : ℕ, n < 24 →
        ((monthStepN sM sY n).2 < ctx.todaysYear ∨
          ((monthStepN sM sY n).2 = ctx.todaysYear ∧
            (monthStepN sM sY n).1 ≤ ctx.todaysMonth)) →
        (mapGet M0B
          ⟨(monthStepN sM sY n).1, (monthStepN sM sY n).2, c⟩).isSome) →
      (processExpenses ctx sM sY expenses rmapB).1.map (·.record) =
        (processExpenses ctx sM sY expenses rmapA).1.map (·.record) ∧
      ∀ s ∈ (processExpenses ctx sM sY expenses rmapB).1,
        s.isUpdate = true := by
  intro expenses
  induction expenses with
  | nil =>
    intro rmapA rmapB _ _ _ _ _ _ _
    exact ⟨rfl, by intro s hs; simp [processExpenses_nil_eq] at hs⟩
  | cons e rest ih =>
    intro rmapA rmapB hnd hwkA hwkB hagA hagB hprev hpres
    have hnd₂ := List.nodup_cons.mp hnd
    have hpe : prevEOMOf ctx e sM sY rmapA = prevEOMOf ctx e sM sY rmapB := by
      unfold prevEOMOf
      rw [hagA ⟨(prevMonthYear sM sY).1, (prevMonthYear sM sY).2, e⟩
          (List.mem_cons_self ..),
        hagB ⟨(prevMonthYear sM sY).1, (prevMonthYear sM sY).2, e⟩
          (List.mem_cons_self ..),
        hprev e (List.mem_cons_self ..)]
    have hrecs := walk_records_congr ctx e 24 sM sY rmapA rmapB hwkA hwkB
      h1 h2 hpe
    have hflags : ∀ s ∈ (walk ctx e sM sY 24 rmapB).1, s.isUpdate = true := by
      refine walk_all_updates ctx e 24 sM sY rmapB hwkB ?_
      intro n hn hcn
      rw [hagB ⟨(monthStepN sM sY n).1, (monthStepN sM sY n).2, e⟩
        (List.mem_cons_self ..)]
      exact hpres e (List.mem_cons_self ..) n hn hcn
    have htail := ih (walk ctx e sM sY 24 rmapA).2 (walk ctx e sM sY 24 rmapB).2
      hnd₂.2 (wellKeyed_walk ctx e 24 sM sY rmapA hwkA)
      (wellKeyed_walk ctx e 24 sM sY rmapB hwkB)
      (fun k hk => by
        rw [walk_mapGet_untouched ctx e 24 sM sY rmapA k
          (Or.inl fun hkeq => hnd₂.1 (hkeq ▸ hk))]
        exact hagA k (List.mem_cons_of_mem _ hk))
      (fun k hk => by
        rw [walk_mapGet_untouched ctx e 24 sM sY rmapB k
          (Or.inl fun hkeq => hnd₂.1 (hkeq ▸ hk))]
        exact hagB k (List.mem_cons_of_mem _ hk))
      (fun c hc => hprev c (List.mem_cons_of_mem _ hc))
      (fun c hc => hpres c (List.mem_cons_of_mem _ hc))
    rw [processExpenses_cons_eq ctx sM sY e rest rmapA hg,
      processExpenses_cons_eq ctx sM sY e rest rmapB hg]
    constructor
    · simp only [List.map_append]
      exact congrArg₂ (· ++ ·) hrecs htail.1
    · intro s hs
      rcases List.mem_append.mp hs with hs | hs
      · exact hflags s hs
      · exact htail.2 s hs

theorem resetRollover_not_aborted (env : Env) (sM sY : ℤ) (e? : Option String)
    (hg : ¬(sY > env.todaysYear ∨
      (sY = env.todaysYear ∧ sM > env.todaysMonth))) :
    (resetRollover env sM sY e?).aborted = false ∧
    (resetRollover env sM sY e?).outs =
      (processExpenses (mkContext env) sM sY
        (expensesOf env.expenseList e?)
        (buildRolloverMap env.rollovers)).1 := by
  have hpa := processExpenses_not_aborted (mkContext env) sM sY hg
    (expensesOf env.expenseList e?)
    (buildRolloverMap env.rollovers)
  unfold resetRollover
  simp only [hpa]
  simp

/-! ## Claim theorem: idempotence (C5) -/

/-- **C5.** With the first run's written records visible in storage (its
updates applied at their row indices and its inserts appended) and no change
to any other input, a second identical `resetRollover` run computes exactly
the same records — in particular the same ClosingBalance for every (month,
year, category) — and queues every period as an update: its inserts list is
empty. -/
theorem rollover_idempotent (env : Env) (sM sY : ℤ) (e? : Option String)
    (hnd : (expensesOf env.expenseList e?).Nodup)
    (h1 : 1 ≤ sM) (h2 : sM ≤ 12)
    (h3 : 1 ≤ env.todaysMonth) (h4 : env.todaysMonth ≤ 12)
    (hg : ¬(sY > env.todaysYear ∨
      (sY = env.todaysYear ∧ sM > env.todaysMonth))) :
    (resetRollover
        { env with rollovers :=
            applyResetResult env.rollovers (resetRollover env sM sY e?) }
        sM sY e?).outs.map (·.record) =
      (resetRollover env sM sY e?).outs.map (·.record) ∧
    (∀ s ∈ (resetRollover
        { env with rollovers :=
            applyResetResult env.rollovers (resetRollover env sM sY e?) }
        sM sY e?).outs, s.isUpdate = true) ∧
    (resetRollover
        { env with rollovers :=
            applyResetResult env.rollovers (resetRollover env sM sY e?) }
        sM sY e?).inserts = [] := by
  set env2 : Env :=
    { env with rollovers :=
        applyResetResult env.rollovers (resetRollover env sM sY e?) }
    with henv2
  obtain ⟨hab1, houts1⟩ := resetRollover_not_aborted env sM sY e? hg
  obtain ⟨hab2, houts2⟩ := resetRollover_not_aborted env2 sM sY e? hg
  rw [show mkContext env2 = mkContext env from rfl,
    show env2.rollovers =
      applyUpdates env.rollovers (resetRollover env sM sY e?).updates ++
        (resetRollover env sM sY e?).inserts from rfl,
    show env2.expenseList = env.expenseList from rfl] at houts2
  have hexp : ∃ l : List String, l = expensesOf env.expenseList e? := ⟨_, rfl⟩
  obtain ⟨expenses, hexp⟩ := hexp
  rw [← hexp] at hnd houts1 houts2
  have hsound := processExpenses_sound (mkContext env) sM sY env.rollovers
    expenses (buildRolloverMap env.rollovers) hnd
    (wellKeyed_buildRolloverMap env.rollovers) (fun k _ => rfl)
  have hcov := processExpenses_coverage (mkContext env) sM sY h1 h2 h3 h4
    expenses (buildRolloverMap env.rollovers)
    (wellKeyed_buildRolloverMap env.rollovers)
  have hupdmem : ∀ u ∈ (resetRollover env sM sY e?).updates,
      ∃ s ∈ (processExpenses (mkContext env) sM sY expenses
          (buildRolloverMap env.rollovers)).1,
        s.isUpdate = true ∧ u = (s.rowIndex, s.record) := by
    intro u hu
    rw [resetRollover_updates_eq, houts1] at hu
    obtain ⟨s, hsf, hue⟩ := List.mem_map.mp hu
    obtain ⟨hsmem, hflt⟩ := List.mem_filter.mp hsf
    exact ⟨s, hsmem, by simpa using hflt, hue.symm⟩
  have hinsmem : ∀ r ∈ (resetRollover env sM sY e?).inserts,
      ∃ s ∈ (processExpenses (mkContext env) sM sY expenses
          (buildRolloverMap env.rollovers)).1,
        r = s.record := by
    intro r hr
    rw [resetRollover_inserts_eq, houts1] at hr
    obtain ⟨s, hsf, hre⟩ := List.mem_map.mp hr
    exact ⟨s, (List.mem_filter.mp hsf).1, hre.symm⟩
  have hupskey : ∀ u ∈ (resetRollover env sM sY e?).updates,
      ∀ r, env.rollovers[u.1.toNat]? = some r →
        rolloverKey u.2 = rolloverKey r := by
    intro u hu r hr
    obtain ⟨s, hsmem, hsupd, hue⟩ := hupdmem u hu
    obtain ⟨-, r₀, hget, hk₀⟩ := (hsound s hsmem).2.2 hsupd
    rw [hue] at hr
    simp only at hr
    rw [hget] at hr
    injection hr with hr
    rw [hue, ← hr]
    exact hk₀.symm
  have hkey_bound : ∀ u ∈ (resetRollover env sM sY e?).updates,
      sY * 12 + sM ≤ u.2.Year * 12 + u.2.Month := by
    intro u hu
    obtain ⟨s, hsmem, -, hue⟩ := hupdmem u hu
    rw [hue]
    exact (hsound s hsmem).1
  have hins_bound : ∀ r ∈ (resetRollover env sM sY e?).inserts,
      sY * 12 + sM ≤ r.Year * 12 + r.Month := by
    intro r hr
    obtain ⟨s, hsmem, hre⟩ := hinsmem r hr
    rw [hre]
    exact (hsound s hsmem).1
  have hprevidx := prevMonthYear_index sM sY
  have hprev :
      ∀ c ∈ expenses,
      mapGet (buildRolloverMap
          (applyUpdates env.rollovers (resetRollover env sM sY e?).updates ++
            (resetRollover env sM sY e?).inserts))
        ⟨(prevMonthYear sM sY).1, (prevMonthYear sM sY).2, c⟩ =
      mapGet (buildRolloverMap env.rollovers)
        ⟨(prevMonthYear sM sY).1, (prevMonthYear sM sY).2, c⟩ := by
    intro c _
    refine buildRolloverMap_written_agree env.rollovers _ _ _ ?_ ?_
    · intro u hu
      have hkb := hkey_bound u hu
      constructor
      · intro hkeq
        have hm := congrArg RKey.month hkeq
        have hy := congrArg RKey.year hkeq
        simp only [rolloverKey] at hm hy
        omega
      · intro r hr hkeq
        have hkr := hupskey u hu r hr
        rw [← hkr] at hkeq
        have hm := congrArg RKey.month hkeq
        have hy := congrArg RKey.year hkeq
        simp only [rolloverKey] at hm hy
        omega
    · intro r hr hkeq
      have hrb := hins_bound r hr
      have hm := congrArg RKey.month hkeq
      have hy := congrArg RKey.year hkeq
      simp only [rolloverKey] at hm hy
      omega
  have hpres :
      ∀ c ∈ expenses,
      ∀ n : ℕ, n < 24 →
      ((monthStepN sM sY n).2 < (mkContext env).todaysYear ∨
        ((monthStepN sM sY n).2 = (mkContext env).todaysYear ∧
          (monthStepN sM sY n).1 ≤ (mkContext env).todaysMonth)) →
      (mapGet (buildRolloverMap
          (applyUpdates env.rollovers (resetRollover env sM sY e?).updates ++
            (resetRollover env sM sY e?).inserts))
        ⟨(monthStepN sM sY n).1, (monthStepN sM sY n).2, c⟩).isSome := by
    intro c hc n hn hcond
    obtain ⟨s, hsmem, hm, hy, he⟩ := hcov c hc n hn hcond
    have hkey : rolloverKey s.record =
        ⟨(monthStepN sM sY n).1, (monthStepN sM sY n).2, c⟩ := by
      unfold rolloverKey
      rw [hm, hy, he]
    rw [buildRolloverMap_isSome]
    by_cases hsupd : s.isUpdate = true
    · obtain ⟨-, r₀, hget, hk₀⟩ := (hsound s hsmem).2.2 hsupd
      obtain ⟨r₂, hr₂mem, hr₂key⟩ := key_mem_written env.rollovers
        (resetRollover env sM sY e?).updates
        (resetRollover env sM sY e?).inserts (rolloverKey s.record) hupskey
        ⟨r₀, List.getElem?_mem hget, hk₀⟩
      exact ⟨r₂, hr₂mem, hkey ▸ hr₂key⟩
    · have hmem₂ : s.record ∈ (resetRollover env sM sY e?).inserts := by
        rw [resetRollover_inserts_eq, houts1]
        exact List.mem_map.mpr ⟨s, List.mem_filter.mpr ⟨hsmem,
          by simpa using hsupd⟩, rfl⟩
      exact ⟨s.record, List.mem_append_right _ hmem₂, hkey⟩
  have hrerun := processExpenses_rerun (mkContext env) sM sY
    (buildRolloverMap env.rollovers)
    (buildRolloverMap
      (applyUpdates env.rollovers (resetRollover env sM sY e?).updates ++
        (resetRollover env sM sY e?).inserts))
    h1 h2 hg expenses
    (buildRolloverMap env.rollovers)
    (buildRolloverMap
      (applyUpdates env.rollovers (resetRollover env sM sY e?).updates ++
        (resetRollover env sM sY e?).inserts))
    hnd (wellKeyed_buildRolloverMap _) (wellKeyed_buildRolloverMap _)
    (fun k _ => rfl) (fun k _ => rfl) hprev hpres
  refine ⟨?_, ?_, ?_⟩
  · rw [houts2, houts1]
    exact hrerun.1
  · intro s hs
    rw [houts2] at hs
    exact hrerun.2 s hs
  · have hfilter : ((resetRollover env2 sM sY e?).outs.filter
        fun s => !s.isUpdate) = [] := by
      rw [houts2]
      refine List.filter_eq_nil_iff.mpr ?_
      intro s hs
      rw [hrerun.2 s hs]
      simp
    rw [resetRollover_inserts_eq, hfilter]
    rfl

/-- Scenario A's table after its first recalculation run has been written
back. -/
def envFixtureRerun : Env :=
  { envFixture with
    rollovers := (applyResetResult envFixture.rollovers
      (resetRollover envFixture 1 2023 (some "Expense1"))) }

/-- Witness for C5: re-running Scenario A's single-category recalculation
over the written table queues no insert and recomputes the same records. -/
theorem rollover_idempotent_witness :
    (resetRollover envFixtureRerun 1 2023 (some "Expense1")).inserts = [] ∧
    (resetRollover envFixtureRerun 1 2023 (some "Expense1")).outs.map
        (·.record) =
      (resetRollover envFixture 1 2023 (some "Expense1")).outs.map
        (·.record) := by
  have h := rollover_idempotent envFixture 1 2023 (some "Expense1")
    (by simp [expensesOf]) (by norm_num) (by norm_num) (by decide) (by decide)
    (by decide)
  exact ⟨h.2.2, h.1⟩

end BudgetHelper
